import Mathlib

/-!
Bootstrap percolation on an n×n grid (the "water problem").

A shallow embedding of the brute-force programs
`simple.c`, `multithreaded.c` and `marco.c`.

* A state is a 64-bit word (`uint64_t`), embedded as a `Nat`; bit `i` is the
  cell `(i mod n, i div n)`.  Every shift in the programs is by an index
  `< n*n ≤ 64`, so `|=` with `1ULL << idx` never wraps; the only shift that
  can reach the width of the word is `1ULL << (n*n)` in `main`, at `n = 8`
  (see `totalStates`).
* The global `g_n` is the explicit first argument `n` of every function.
* `for` loops are left folds over `List.range`.
-/

namespace WaterProblem

/-! ## Loops -/

/-- The loop `for (int i = 0; i < k; i++) body`, threading the mutated variables. -/
def forRange {α : Type} (k : Nat) (body : Nat → α → α) (init : α) : α :=
  (List.range k).foldl (fun acc i => body i acc) init

/-- The nested loops `for (y = 0; y < n; y++) for (x = 0; x < n; x++) body`. -/
def forYX {α : Type} (n : Nat) (body : Nat → Nat → α → α) (init : α) : α :=
  forRange n (fun y acc => forRange n (fun x acc => body x y acc) acc) init

/-! ## Cells and bits -/

/-- The builtin `__builtin_popcountll`: the number of set bits of a 64-bit word. -/
def popcount64 (x : Nat) : Nat :=
  (List.range 64).countP (fun i => x.testBit i)

/-- Index of the cell in column `x`, row `y`: `y * g_n + x`. -/
def cellIndex (n x y : Nat) : Nat := y * n + x

/-- The test `(state >> idx) & 1ULL`. -/
def isFilled (state idx : Nat) : Nat := (state >>> idx) &&& 1

/-- The update `*state |= (1ULL << idx)`. -/
def fillCell (state idx : Nat) : Nat := state ||| (1 <<< idx)

/-- The update `neighborMask[c] |= v` on the table of masks. -/
def orAt (tbl : Nat → Nat) (c v : Nat) : Nat → Nat :=
  fun k => if k = c then tbl k ||| v else tbl k

/-- The table `neighborMask` after `buildNeighborMasks()`: all entries zeroed,
then one pass over the cells adding the up, down, left and right neighbour. -/
def buildNeighborMasks (n : Nat) : Nat → Nat :=
  forYX n (fun x y neighborMask =>
    let c := cellIndex n x y
    let neighborMask :=
      if y > 0 then orAt neighborMask c (1 <<< cellIndex n x (y - 1)) else neighborMask
    let neighborMask :=
      if y < n - 1 then orAt neighborMask c (1 <<< cellIndex n x (y + 1)) else neighborMask
    let neighborMask :=
      if x > 0 then orAt neighborMask c (1 <<< cellIndex n (x - 1) y) else neighborMask
    let neighborMask :=
      if x < n - 1 then orAt neighborMask c (1 <<< cellIndex n (x + 1) y) else neighborMask
    neighborMask) (fun _ => 0)

/-- The global table `neighborMask`, as every function called after
`buildNeighborMasks()` sees it. -/
def neighborMask (n : Nat) (c : Nat) : Nat := buildNeighborMasks n c

/-! ## The simulator -/

/-- One iteration step: the pair (new `*state`, returned `changed`). -/
def iteration_step (n : Nat) (state : Nat) : Nat × Nat :=
  let old_state := state
  forRange (n * n) (fun c (acc : Nat × Nat) =>
    if isFilled old_state c = 0 then
      let count_neighbors := popcount64 (old_state &&& neighborMask n c)
      if count_neighbors ≥ 2 then (fillCell acc.1 c, 1) else acc
    else acc) (state, 0)

/-- The loop `while (iteration_step(&state)) steps++;` run for at most `fuel`
calls of `iteration_step`; `none` when the fuel runs out. -/
def compute_length_loop (n : Nat) : Nat → Nat → Nat → Option Nat
  | 0, _, _ => none
  | fuel + 1, state, steps =>
    let r := iteration_step n state
    if r.2 ≠ 0 then compute_length_loop n fuel r.1 (steps + 1) else some steps

/-- Stabilisation length `compute_length(initialState)`; `n*n + 1` calls of
`iteration_step` are always enough (theorem `compute_length_loop_fuel`). -/
def compute_length (n : Nat) (initialState : Nat) : Nat :=
  (compute_length_loop n (n * n + 1) initialState 1).getD 0

/-! ## The symmetry canonicaliser (`simple.c`) -/

/-- Rotate 90° clockwise: `(x,y) -> (n-1-y, x)`. -/
def rotate90 (n state : Nat) : Nat :=
  forYX n (fun x y out =>
    let oldPos := cellIndex n x y
    if isFilled state oldPos ≠ 0 then
      let newX := n - 1 - y
      let newY := x
      let newPos := cellIndex n newX newY
      fillCell out newPos
    else out) 0

/-- Rotate 180°: `(x,y) -> (n-1-x, n-1-y)`. -/
def rotate180 (n state : Nat) : Nat :=
  forYX n (fun x y out =>
    let oldPos := cellIndex n x y
    if isFilled state oldPos ≠ 0 then
      let newX := n - 1 - x
      let newY := n - 1 - y
      let newPos := cellIndex n newX newY
      fillCell out newPos
    else out) 0

/-- Rotate 270° clockwise: `(x,y) -> (y, n-1-x)`. -/
def rotate270 (n state : Nat) : Nat :=
  forYX n (fun x y out =>
    let oldPos := cellIndex n x y
    if isFilled state oldPos ≠ 0 then
      let newX := y
      let newY := n - 1 - x
      let newPos := cellIndex n newX newY
      fillCell out newPos
    else out) 0

/-- Reflect horizontally (flip top and bottom): `(x,y) -> (x, n-1-y)`. -/
def reflectHorizontal (n state : Nat) : Nat :=
  forYX n (fun x y out =>
    let oldPos := cellIndex n x y
    if isFilled state oldPos ≠ 0 then
      let newX := x
      let newY := n - 1 - y
      let newPos := cellIndex n newX newY
      fillCell out newPos
    else out) 0

/-- Reflect vertically (flip left and right): `(x,y) -> (n-1-x, y)`. -/
def reflectVertical (n state : Nat) : Nat :=
  forYX n (fun x y out =>
    let oldPos := cellIndex n x y
    if isFilled state oldPos ≠ 0 then
      let newX := n - 1 - x
      let newY := y
      let newPos := cellIndex n newX newY
      fillCell out newPos
    else out) 0

/-- Reflect along the main diagonal: `(x,y) -> (y,x)`. -/
def reflectMainDiag (n state : Nat) : Nat :=
  forYX n (fun x y out =>
    let oldPos := cellIndex n x y
    if isFilled state oldPos ≠ 0 then
      let newX := y
      let newY := x
      let newPos := cellIndex n newX newY
      fillCell out newPos
    else out) 0

/-- Reflect along the anti-diagonal: `(x,y) -> (n-1-y, n-1-x)`. -/
def reflectAntiDiag (n state : Nat) : Nat :=
  forYX n (fun x y out =>
    let oldPos := cellIndex n x y
    if isFilled state oldPos ≠ 0 then
      let newX := n - 1 - y
      let newY := n - 1 - x
      let newPos := cellIndex n newX newY
      fillCell out newPos
    else out) 0

/-- The array `t[0..7]` of `getCanonicalRep`: the state and its seven images. -/
def images (n state : Nat) : List Nat :=
  [state, rotate90 n state, rotate180 n state, rotate270 n state,
    reflectHorizontal n state, reflectVertical n state,
    reflectMainDiag n state, reflectAntiDiag n state]

/-- Canonical representative: `best = t[0]`, then for `i = 1..7` take `t[i]`
when `t[i] < best`. -/
def getCanonicalRep (n state : Nat) : Nat :=
  let t := images n state
  ((List.range' 1 7).map (fun i => t.getD i 0)).foldl
    (fun best ti => if ti < best then ti else best) (t.getD 0 0)

/-! ## The exhaustive searches (`simple.c`, `multithreaded.c`) -/

/-- The total state count `1ULL << (g_n*g_n)` of `main`, a 64-bit unsigned
word.  For `n ≤ 7` the shift count is below 64 and the value is `2^(n*n)`.
For `n = 8` the shift count is 64, the width of the type, which C leaves
undefined; the embedding takes the shift count modulo 64, as the x86-64 shift
instruction does, so that the count is 1 there.  What is proved at `n = 8` holds
for every 64-bit value of the count and does not rest on this choice. -/
def totalStates (n : Nat) : Nat := (1 <<< (n * n % 64)) % 2 ^ 64

/-- The loop of `multithreaded.c` that hands out the ranges: `k` ranges still to
hand out, the next one starting at `start`, `remainder` of them one longer than
`chunkSize`.  Returns the list of `(startState, endState)`. -/
def partitionLoop (chunkSize : Nat) : Nat → Nat → Nat → List (Nat × Nat)
  | 0, _, _ => []
  | k + 1, start, remainder =>
    let end_ := start + chunkSize
    if remainder > 0 then
      (start, end_ + 1) :: partitionLoop chunkSize k (end_ + 1) (remainder - 1)
    else
      (start, end_) :: partitionLoop chunkSize k end_ remainder

/-- The ranges `tasks[0..threadCount-1]` of `multithreaded.c`. -/
def partition (totalStates threadCount : Nat) : List (Nat × Nat) :=
  let chunkSize := totalStates / threadCount
  let remainder := totalStates % threadCount
  partitionLoop chunkSize threadCount 0 remainder

/-- The search loop of `simple.c` over the states `0 .. totalStates-1`, from
`maxLength = 0`, `bestState = 0`: states that are not their own canonical
representative are skipped, the others offered with a strict `>`.
Returns `(maxLength, bestState)`. -/
def simpleSearch (n totalStates : Nat) : Nat × Nat :=
  forRange totalStates (fun state (acc : Nat × Nat) =>
    let canonical := getCanonicalRep n state
    if state ≠ canonical then acc
    else
      let length := compute_length n state
      if length > acc.1 then (length, state) else acc) (0, 0)

/-- The worker of `multithreaded.c` on the range `task = (startState, endState)`:
every state of the range is scored and offered with a strict `>` from
`localMax = 0`, `localBest = 0`.  Returns `(localMaxLength, localBestState)`. -/
def workerThreadFunc (n : Nat) (task : Nat × Nat) : Nat × Nat :=
  (List.range' task.1 (task.2 - task.1)).foldl (fun (acc : Nat × Nat) s =>
    let length := compute_length n s
    if length > acc.1 then (length, s) else acc) (0, 0)

/-- The partition and merge of `multithreaded.c`: the ranges are handed to the
workers, and their results merged in the order of the ranges with a strict `>`,
from `globalMaxLength = 0`, `globalBestState = 0`. -/
def partitionedSearch (n totalStates threadCount : Nat) : Nat × Nat :=
  ((partition totalStates threadCount).map (workerThreadFunc n)).foldl
    (fun (acc : Nat × Nat) task => if task.1 > acc.1 then (task.1, task.2) else acc) (0, 0)

/-! ## The bounded recursive search (`marco.c`) -/

/-- The update `*state &= ~(1ULL << idx)` on a 64-bit word: the complement is
taken in 64 bits. -/
def unfillCell (state idx : Nat) : Nat := state &&& ((2 ^ 64 - 1) ^^^ (1 <<< idx))

/-- The function `recurse(&state, i, depth)` of `marco.c`.  Returns the triple of
the returned `max_length`, the value of `*state` when the call returns, and
the list of the arguments of the calls of `compute_length` made by the call and
its recursive calls, in order (a log added to the embedding; the program only
prints `i` at one depth, which is left out).  The loop
`for (j = i + 1; j < g_n*g_n; j++)` runs over the naturals from `i + 1` on;
every call made by the program has `i ≥ -1`. -/
def recurse (n : Nat) : Nat → Int → Nat → Nat × Nat × List Nat
  | state, _, 0 => (compute_length n state, state, [state])
  | state, i, depth + 1 =>
    let max_length := compute_length n state
    (List.range' (i + 1).toNat (n * n - (i + 1).toNat)).foldl
      (fun (acc : Nat × Nat × List Nat) j =>
        let state := fillCell acc.2.1 j
        let r := recurse n state (j : Int) depth
        let length := r.1
        let max_length := if length > acc.1 then length else acc.1
        (max_length, unfillCell r.2.1 j, acc.2.2 ++ r.2.2))
      (max_length, state, [state])

/-! ## Auxiliary notions used in the statements and proofs -/

/-! ### The step bit by bit, and stabilisation -/

/-- The condition under which `iteration_step` fills cell `c`. -/
def fills (n s c : Nat) : Prop :=
  s.testBit c = false ∧ 2 ≤ popcount64 (s &&& neighborMask n c)

instance (n s c : Nat) : Decidable (fills n s c) := by unfold fills; infer_instance

/-- The body of the loop of `iteration_step`. -/
def stepBody (n old_state : Nat) (c : Nat) (acc : Nat × Nat) : Nat × Nat :=
  if isFilled old_state c = 0 then
    let count_neighbors := popcount64 (old_state &&& neighborMask n c)
    if count_neighbors ≥ 2 then (fillCell acc.1 c, 1) else acc
  else acc

/-- The new state of `iteration_step`. -/
def stepState (n s : Nat) : Nat := (iteration_step n s).1

/-- Number of unfilled cells of the grid. -/
def freeCells (n s : Nat) : Nat :=
  ((Finset.range (n * n)).filter (fun c => s.testBit c = false)).card

/-- The state after `k` steps is stable and no earlier one is. -/
def StabilisesAt (n s k : Nat) : Prop :=
  stepState n ((stepState n)^[k] s) = (stepState n)^[k] s ∧
    ∀ j, j < k → stepState n ((stepState n)^[j] s) ≠ (stepState n)^[j] s

/-! ### The symmetries of the square, uniformly -/

/-- A symmetry of the square: optionally swap the coordinates, then optionally
mirror the new column and the new row. -/
structure Sym where
  /-- Swap the two coordinates first. -/
  sw : Bool
  /-- Mirror the resulting column: `a -> n-1-a`. -/
  fx : Bool
  /-- Mirror the resulting row: `b -> n-1-b`. -/
  fy : Bool
  deriving DecidableEq

/-- New column of the cell `(x, y)` under the symmetry `g`. -/
def Sym.newX (g : Sym) (n x y : Nat) : Nat :=
  let a := if g.sw then y else x
  if g.fx then n - 1 - a else a

/-- New row of the cell `(x, y)` under the symmetry `g`. -/
def Sym.newY (g : Sym) (n x y : Nat) : Nat :=
  let b := if g.sw then x else y
  if g.fy then n - 1 - b else b

/-- The common loop of the seven transforms, for the symmetry `g`. -/
def applySym (g : Sym) (n state : Nat) : Nat :=
  forYX n (fun x y out =>
    if isFilled state (cellIndex n x y) ≠ 0 then
      fillCell out (cellIndex n (g.newX n x y) (g.newY n x y))
    else out) 0

/-- Inverse symmetry. -/
def Sym.inv (g : Sym) : Sym :=
  ⟨g.sw, if g.sw then g.fy else g.fx, if g.sw then g.fx else g.fy⟩

/-- Composition: first `g`, then `h`. -/
def Sym.andThen (g h : Sym) : Sym :=
  ⟨xor g.sw h.sw, xor h.fx (if h.sw then g.fy else g.fx),
    xor h.fy (if h.sw then g.fx else g.fy)⟩

/-- The eight symmetries, in the order of the array `t` of `getCanonicalRep`. -/
def allSyms : List Sym :=
  [⟨false, false, false⟩, ⟨true, true, false⟩, ⟨false, true, true⟩, ⟨true, false, true⟩,
    ⟨false, false, true⟩, ⟨false, true, false⟩, ⟨true, false, false⟩, ⟨true, true, true⟩]

/-- Cell `b` is the cell above, below, left or right of the cell `(x, y)`, as
tested by the body of `buildNeighborMasks`. -/
def NB (n x y b : Nat) : Prop :=
  (0 < y ∧ b = cellIndex n x (y - 1)) ∨ (y < n - 1 ∧ b = cellIndex n x (y + 1)) ∨
    (0 < x ∧ b = cellIndex n (x - 1) y) ∨ (x < n - 1 ∧ b = cellIndex n (x + 1) y)

/-- The cell `(x', y')` is orthogonally adjacent to the cell `(x, y)`. -/
def NBc (x y x' y' : Nat) : Prop :=
  (x' = x ∧ y' + 1 = y) ∨ (x' = x ∧ y' = y + 1) ∨ (x' + 1 = x ∧ y' = y) ∨ (x' = x + 1 ∧ y' = y)

/-- Two distinct cells of the grid adjacent to `(x, y)` are filled in `s`. -/
def TwoNbrs (n s x y : Nat) : Prop :=
  ∃ xa ya xb yb, (xa < n ∧ ya < n ∧ xb < n ∧ yb < n) ∧ ¬ (xa = xb ∧ ya = yb) ∧
    NBc x y xa ya ∧ NBc x y xb yb ∧
    s.testBit (cellIndex n xa ya) = true ∧ s.testBit (cellIndex n xb yb) = true

/-! ### Scans -/

/-- The scan of the claim C7 without pruning: every state of
`0 .. totalStates-1` is scored with `compute_length` and offered with the same
strict `>`. -/
def scanAll (n totalStates : Nat) : Nat × Nat :=
  forRange totalStates (fun state (acc : Nat × Nat) =>
    let length := compute_length n state
    if length > acc.1 then (length, state) else acc) (0, 0)

/-- Offer a candidate `(length, state)` to the current best, with a strict `>`. -/
def offer (best cand : Nat × Nat) : Nat × Nat :=
  if cand.1 > best.1 then cand else best

/-- A scan of the states below `T`, offering the states that `keep` retains. -/
def scanKeep (keep : Nat → Prop) [DecidablePred keep] (f : Nat → Nat) (T : Nat) : Nat × Nat :=
  forRange T (fun s acc => if keep s then offer acc (f s, s) else acc) (0, 0)

/-! ### Equivalence classes of states -/

/-- The equivalence class of the state `s` on the grid of size `n`: the states
of the grid that are one of the eight images of `s`. -/
def symClass (n s : Nat) : Finset Nat :=
  (Finset.range (2 ^ (n * n))).filter (fun t => t ∈ images n s)

/-! ### The recursion tree of `recurse` -/

/-- The cells tried by the loop of `recurse(&state, i, depth)`: `i+1 .. n*n-1`. -/
def loopRange (n : Nat) (i : Int) : List Nat :=
  List.range' (i + 1).toNat (n * n - (i + 1).toNat)

/-- The body of the loop of `recurse` at depth `depth + 1`, on the triple
(`max_length`, `*state`, log). -/
def recurseStep (n depth : Nat) (acc : Nat × Nat × List Nat) (j : Nat) : Nat × Nat × List Nat :=
  let state := fillCell acc.2.1 j
  let r := recurse n state (j : Int) depth
  let length := r.1
  let max_length := if length > acc.1 then length else acc.1
  (max_length, unfillCell r.2.1 j, acc.2.2 ++ r.2.2)

/-- The states of the nodes of the recursion tree below the node
(`state`, `i`, `depth`), in the order of the calls. -/
def visits (n : Nat) : Nat → Int → Nat → List Nat
  | state, _, 0 => [state]
  | state, i, depth + 1 =>
    state :: (loopRange n i).flatMap (fun j => visits n (fillCell state j) (j : Int) depth)

/-- Number of filled cells of the grid in the state `m`. -/
def filledCount (n m : Nat) : Nat :=
  ((Finset.range (n * n)).filter (fun k => m.testBit k = true)).card

/-- The mask `m` is a set of at most `d` cells, all with an index in `(i, n*n)`. -/
def MaskOK (n : Nat) (i : Int) (d m : Nat) : Prop :=
  (∀ k, m.testBit k = true → i < (k : Int) ∧ k < n * n) ∧ filledCount n m ≤ d

/-- The state fits a 64-bit word and none of the cells `i+1 .. n*n-1` is filled. -/
def TailClear (n : Nat) (i : Int) (state : Nat) : Prop :=
  state < 2 ^ 64 ∧ ∀ k : Nat, i < (k : Int) → k < n * n → state.testBit k = false

/-- The result `r` of a call of `recurse` leaves `state` in place, has logged the
list `vs` of states, and returns the maximum of `compute_length` over `vs`. -/
def NodeSpec (n : Nat) (r : Nat × Nat × List Nat) (state : Nat) (vs : List Nat) : Prop :=
  r.2.1 = state ∧ r.2.2 = vs ∧ (∀ s ∈ vs, compute_length n s ≤ r.1) ∧
    ∃ s ∈ vs, compute_length n s = r.1

/-! # Theorems -/

/-! ## Loops and single bits -/

theorem forRange_zero {α : Type} (body : Nat → α → α) (init : α) :
    forRange 0 body init = init := by
  simp [forRange]

theorem forRange_succ {α : Type} (k : Nat) (body : Nat → α → α) (init : α) :
    forRange (k + 1) body init = body k (forRange k body init) := by
  simp [forRange, List.range_succ, List.foldl_append]

theorem isFilled_eq_zero (s i : Nat) : isFilled s i = 0 ↔ s.testBit i = false := by
  unfold isFilled Nat.testBit
  rw [Nat.land_comm]
  simp

theorem isFilled_ne_zero (s i : Nat) : isFilled s i ≠ 0 ↔ s.testBit i = true := by
  rw [Ne, isFilled_eq_zero]; simp

theorem testBit_fillCell (s i j : Nat) :
    (fillCell s i).testBit j = (s.testBit j || decide (i = j)) := by
  unfold fillCell
  rw [Nat.testBit_or, Nat.one_shiftLeft, Nat.testBit_two_pow]

/-! ## The step, bit by bit -/

theorem iteration_step_eq (n s : Nat) :
    iteration_step n s = forRange (n * n) (stepBody n s) (s, 0) := rfl

theorem stepBody_fills (n s c : Nat) (acc : Nat × Nat) (h : fills n s c) :
    stepBody n s c acc = (fillCell acc.1 c, 1) := by
  unfold stepBody
  rw [if_pos ((isFilled_eq_zero s c).2 h.1)]
  simp only []
  rw [if_pos h.2]

theorem stepBody_not_fills (n s c : Nat) (acc : Nat × Nat) (h : ¬ fills n s c) :
    stepBody n s c acc = acc := by
  unfold stepBody
  by_cases h1 : isFilled s c = 0
  · rw [if_pos h1]
    simp only []
    rw [if_neg]
    intro h2
    exact h ⟨(isFilled_eq_zero s c).1 h1, h2⟩
  · rw [if_neg h1]

theorem stepLoop_testBit (n s k : Nat) (init : Nat × Nat) (j : Nat) :
    (forRange k (stepBody n s) init).1.testBit j
      = (init.1.testBit j || decide (j < k ∧ fills n s j)) := by
  induction k with
  | zero => simp [forRange_zero]
  | succ k ih =>
    rw [forRange_succ]
    by_cases h : fills n s k
    · rw [stepBody_fills n s k _ h]
      simp only [testBit_fillCell, ih]
      by_cases hj : k = j
      · subst hj; simp [h]
      · have : (j < k + 1 ∧ fills n s j) ↔ (j < k ∧ fills n s j) := by
          constructor
          · rintro ⟨a, b⟩; exact ⟨by omega, b⟩
          · rintro ⟨a, b⟩; exact ⟨by omega, b⟩
        simp [hj, this]
    · rw [stepBody_not_fills n s k _ h, ih]
      have : (j < k + 1 ∧ fills n s j) ↔ (j < k ∧ fills n s j) := by
        constructor
        · rintro ⟨a, b⟩
          refine ⟨?_, b⟩
          rcases Nat.lt_or_ge j k with h1 | h1
          · exact h1
          · have : j = k := by omega
            subst this; exact absurd b h
        · rintro ⟨a, b⟩; exact ⟨by omega, b⟩
      simp [this]

theorem stepLoop_changed (n s k : Nat) (init : Nat × Nat) :
    (forRange k (stepBody n s) init).2
      = if ∃ c, c < k ∧ fills n s c then 1 else init.2 := by
  induction k with
  | zero => simp [forRange_zero]
  | succ k ih =>
    rw [forRange_succ]
    by_cases h : fills n s k
    · rw [stepBody_fills n s k _ h]
      rw [if_pos ⟨k, by omega, h⟩]
    · rw [stepBody_not_fills n s k _ h, ih]
      have : (∃ c, c < k + 1 ∧ fills n s c) ↔ (∃ c, c < k ∧ fills n s c) := by
        constructor
        · rintro ⟨c, a, b⟩
          refine ⟨c, ?_, b⟩
          rcases Nat.lt_or_ge c k with h1 | h1
          · exact h1
          · have : c = k := by omega
            subst this; exact absurd b h
        · rintro ⟨c, a, b⟩; exact ⟨c, by omega, b⟩
      simp only [this]

theorem iteration_step_testBit (n s j : Nat) :
    (iteration_step n s).1.testBit j = (s.testBit j || decide (j < n * n ∧ fills n s j)) := by
  rw [iteration_step_eq, stepLoop_testBit]

theorem iteration_step_changed (n s : Nat) :
    (iteration_step n s).2 = if ∃ c, c < n * n ∧ fills n s c then 1 else 0 := by
  rw [iteration_step_eq, stepLoop_changed]

theorem popcount64_eq_card (x : Nat) :
    popcount64 x = ((Finset.range 64).filter (fun j => x.testBit j = true)).card := by
  unfold popcount64
  simp [Finset.card, Finset.filter, Finset.range, Multiset.range, List.countP_eq_length_filter]

theorem stepState_testBit (n s j : Nat) :
    (stepState n s).testBit j = (s.testBit j || decide (j < n * n ∧ fills n s j)) :=
  iteration_step_testBit n s j

theorem changed_iff_fills (n s : Nat) :
    (iteration_step n s).2 ≠ 0 ↔ ∃ c, c < n * n ∧ fills n s c := by
  rw [iteration_step_changed]
  by_cases h : ∃ c, c < n * n ∧ fills n s c
  · simp [h]
  · simp [h]

theorem stepState_ne_iff_fills (n s : Nat) :
    stepState n s ≠ s ↔ ∃ c, c < n * n ∧ fills n s c := by
  constructor
  · intro h
    by_contra hno
    apply h
    apply Nat.eq_of_testBit_eq
    intro j
    rw [stepState_testBit]
    have : ¬ (j < n * n ∧ fills n s j) := fun hj => hno ⟨j, hj⟩
    simp [this]
  · rintro ⟨c, hc, hf⟩ heq
    have h1 := stepState_testBit n s c
    rw [heq, hf.1] at h1
    simp [hc, hf] at h1

theorem changed_iff_ne (n s : Nat) :
    (iteration_step n s).2 ≠ 0 ↔ stepState n s ≠ s := by
  rw [changed_iff_fills, stepState_ne_iff_fills]

theorem stepState_mono (n s j : Nat) (h : s.testBit j = true) :
    (stepState n s).testBit j = true := by
  rw [stepState_testBit, h]; rfl

/-! ## Termination of `compute_length` -/

theorem freeCells_le (n s : Nat) : freeCells n s ≤ n * n := by
  unfold freeCells
  calc _ ≤ (Finset.range (n * n)).card := Finset.card_filter_le _ _
    _ = n * n := Finset.card_range _

theorem freeCells_step_lt (n s : Nat) (h : stepState n s ≠ s) :
    freeCells n (stepState n s) < freeCells n s := by
  obtain ⟨c, hc, hf⟩ := (stepState_ne_iff_fills n s).1 h
  unfold freeCells
  apply Finset.card_lt_card
  rw [Finset.ssubset_iff_of_subset]
  · refine ⟨c, ?_, ?_⟩
    · simp [hc, hf.1]
    · have : (stepState n s).testBit c = true := by
        rw [stepState_testBit]; simp [hc, hf]
      simp [this]
  · intro j hj
    simp only [Finset.mem_filter, Finset.mem_range] at hj ⊢
    refine ⟨hj.1, ?_⟩
    by_contra hne
    have := stepState_mono n s j (by simpa using hne)
    rw [hj.2] at this
    exact Bool.noConfusion this

theorem exists_stabilisesAt (n : Nat) :
    ∀ (m s : Nat), freeCells n s ≤ m → ∃ k, k ≤ m ∧ StabilisesAt n s k := by
  intro m
  induction m with
  | zero =>
    intro s hs
    refine ⟨0, le_refl _, ?_, ?_⟩
    · by_contra h
      have := freeCells_step_lt n s h
      omega
    · intro j hj; omega
  | succ m ih =>
    intro s hs
    by_cases h : stepState n s = s
    · exact ⟨0, by omega, h, fun j hj => by omega⟩
    · have hlt := freeCells_step_lt n s h
      obtain ⟨k, hk, hfix, hbefore⟩ := ih (stepState n s) (by omega)
      refine ⟨k + 1, by omega, ?_, ?_⟩
      · simpa [Function.iterate_succ_apply] using hfix
      · intro j hj
        cases j with
        | zero => simpa using h
        | succ j =>
          have := hbefore j (by omega)
          simpa [Function.iterate_succ_apply] using this

theorem compute_length_loop_of_stabilisesAt (n : Nat) :
    ∀ (k s fuel steps : Nat), StabilisesAt n s k → k + 1 ≤ fuel →
      compute_length_loop n fuel s steps = some (steps + k) := by
  intro k
  induction k with
  | zero =>
    intro s fuel steps hst hfuel
    obtain ⟨f, rfl⟩ : ∃ f, fuel = f + 1 := ⟨fuel - 1, by omega⟩
    have h0 : stepState n s = s := by simpa using hst.1
    have hch : ¬ (iteration_step n s).2 ≠ 0 := by
      rw [changed_iff_ne]; simpa using h0
    simp only [compute_length_loop]
    rw [if_neg hch]
    simp
  | succ k ih =>
    intro s fuel steps hst hfuel
    obtain ⟨f, rfl⟩ : ∃ f, fuel = f + 1 := ⟨fuel - 1, by omega⟩
    have h0 : stepState n s ≠ s := by simpa using hst.2 0 (by omega)
    have hch : (iteration_step n s).2 ≠ 0 := (changed_iff_ne n s).2 h0
    have hst' : StabilisesAt n (stepState n s) k := by
      refine ⟨?_, ?_⟩
      · simpa [Function.iterate_succ_apply] using hst.1
      · intro j hj
        simpa [Function.iterate_succ_apply] using hst.2 (j + 1) (by omega)
    simp only [compute_length_loop]
    rw [if_pos hch]
    have := ih (stepState n s) f (steps + 1) hst' (by omega)
    unfold stepState at this
    rw [this]
    congr 1; omega

theorem stabilisesAt_unique (n s k k' : Nat) (h : StabilisesAt n s k)
    (h' : StabilisesAt n s k') : k = k' := by
  rcases Nat.lt_trichotomy k k' with hlt | heq | hgt
  · exact absurd h.1 (h'.2 k hlt)
  · exact heq
  · exact absurd h'.1 (h.2 k' hgt)

theorem compute_length_loop_fuel (n s fuel : Nat) (hfuel : n * n + 1 ≤ fuel) :
    compute_length_loop n fuel s 1 = some (compute_length n s) := by
  obtain ⟨k, hk, hst⟩ := exists_stabilisesAt n (n * n) s (freeCells_le n s)
  unfold compute_length
  rw [compute_length_loop_of_stabilisesAt n k s fuel 1 hst (by omega),
    compute_length_loop_of_stabilisesAt n k s (n * n + 1) 1 hst (by omega)]
  rfl

theorem compute_length_eq_of_stabilisesAt (n s k : Nat) (hst : StabilisesAt n s k) :
    compute_length n s = 1 + k := by
  obtain ⟨k', hk', hst'⟩ := exists_stabilisesAt n (n * n) s (freeCells_le n s)
  have := stabilisesAt_unique n s k k' hst hst'
  subst this
  unfold compute_length
  rw [compute_length_loop_of_stabilisesAt n k s (n * n + 1) 1 hst (by omega)]
  rfl

theorem compute_length_stabilises (n s : Nat) :
    ∃ k, k ≤ n * n ∧ StabilisesAt n s k ∧ compute_length n s = 1 + k := by
  obtain ⟨k, hk, hst⟩ := exists_stabilisesAt n (n * n) s (freeCells_le n s)
  exact ⟨k, hk, hst, compute_length_eq_of_stabilisesAt n s k hst⟩

/-! ## Claims on the simulator -/

/-- C1. For a grid size `n` in 1..8 and any state `s`, `iteration_step` is the
simultaneous update of `s`: for every cell `c < n*n`, bit `c` of the new state
is set iff bit `c` of `s` is set, or it is clear and at least two of the bit
positions set in `neighborMask[c]` are set in `s` itself (the state before the
call); every bit at a position `≥ n*n` is unchanged. -/
theorem C1_iteration_step_simultaneous (n : Nat) (_hn1 : 1 ≤ n) (_hn8 : n ≤ 8) (s : Nat) :
    (∀ c, c < n * n →
      ((iteration_step n s).1.testBit c = true ↔
        (s.testBit c = true ∨
          (s.testBit c = false ∧
            2 ≤ ((Finset.range 64).filter
              (fun j => (neighborMask n c).testBit j = true ∧ s.testBit j = true)).card)))) ∧
    (∀ c, n * n ≤ c → (iteration_step n s).1.testBit c = s.testBit c) := by
  have hcard : ∀ c, popcount64 (s &&& neighborMask n c)
      = ((Finset.range 64).filter
          (fun j => (neighborMask n c).testBit j = true ∧ s.testBit j = true)).card := by
    intro c
    rw [popcount64_eq_card]
    congr 1
    apply Finset.filter_congr
    intro j _
    rw [Nat.testBit_and]
    simp [and_comm]
  constructor
  · intro c hc
    rw [iteration_step_testBit]
    unfold fills
    rw [Bool.or_eq_true, decide_eq_true_eq, hcard c]
    simp [hc]
  · intro c hc
    rw [iteration_step_testBit]
    have : ¬ c < n * n := by omega
    simp [this]

/-- C1 at `n = 2` and the state 9 (the two diagonal cells). -/
theorem C1_iteration_step_simultaneous_witness :
    (∀ c, c < 2 * 2 →
      ((iteration_step 2 9).1.testBit c = true ↔
        (Nat.testBit 9 c = true ∨
          (Nat.testBit 9 c = false ∧
            2 ≤ ((Finset.range 64).filter
              (fun j => (neighborMask 2 c).testBit j = true ∧ Nat.testBit 9 j = true)).card)))) ∧
    (∀ c, 2 * 2 ≤ c → (iteration_step 2 9).1.testBit c = Nat.testBit 9 c) :=
  C1_iteration_step_simultaneous 2 (by decide) (by decide) 9

/-- C2. For a grid size `n` in 1..8 and any state `s`, `compute_length n s` is
`1 + k`, where `k` is the least number of applications of the step after which
the state is a fixed point of the step: the state after `k` steps is stable, no
state after fewer steps is, and the loop of `compute_length` returns `1 + k`
(with any fuel of at least `n*n + 1` calls). -/
theorem C2_compute_length_least_fixed_point (n : Nat) (_hn1 : 1 ≤ n) (_hn8 : n ≤ 8) (s : Nat) :
    ∃ k, compute_length n s = 1 + k ∧
      (iteration_step n ((fun x => (iteration_step n x).1)^[k] s)).1
        = (fun x => (iteration_step n x).1)^[k] s ∧
      (iteration_step n ((fun x => (iteration_step n x).1)^[k] s)).2 = 0 ∧
      (∀ j, j < k →
        (iteration_step n ((fun x => (iteration_step n x).1)^[j] s)).1
          ≠ (fun x => (iteration_step n x).1)^[j] s) ∧
      (∀ fuel, n * n + 1 ≤ fuel → compute_length_loop n fuel s 1 = some (1 + k)) := by
  obtain ⟨k, _, hst, hlen⟩ := compute_length_stabilises n s
  refine ⟨k, hlen, hst.1, ?_, hst.2, ?_⟩
  · have := changed_iff_ne n ((stepState n)^[k] s)
    by_contra h
    exact (this.1 h) hst.1
  · intro fuel hfuel
    rw [compute_length_loop_fuel n s fuel hfuel, hlen]

/-- C2 at `n = 2` and the state 9. -/
theorem C2_compute_length_least_fixed_point_witness :
    ∃ k, compute_length 2 9 = 1 + k ∧
      (iteration_step 2 ((fun x => (iteration_step 2 x).1)^[k] 9)).1
        = (fun x => (iteration_step 2 x).1)^[k] 9 ∧
      (iteration_step 2 ((fun x => (iteration_step 2 x).1)^[k] 9)).2 = 0 ∧
      (∀ j, j < k →
        (iteration_step 2 ((fun x => (iteration_step 2 x).1)^[j] 9)).1
          ≠ (fun x => (iteration_step 2 x).1)^[j] 9) ∧
      (∀ fuel, 2 * 2 + 1 ≤ fuel → compute_length_loop 2 fuel 9 1 = some (1 + k)) :=
  C2_compute_length_least_fixed_point 2 (by decide) (by decide) 9

/-- C3. For a grid size `n` in 1..8 and any state `s`, the loop of
`compute_length` terminates: run with any fuel of at least `n*n + 1` calls of
`iteration_step` it returns `compute_length n s`, and
`1 ≤ compute_length n s ≤ n*n + 1`. -/
theorem C3_compute_length_terminates_bounded (n : Nat) (_hn1 : 1 ≤ n) (_hn8 : n ≤ 8) (s : Nat) :
    (∀ fuel, n * n + 1 ≤ fuel → compute_length_loop n fuel s 1 = some (compute_length n s)) ∧
      1 ≤ compute_length n s ∧ compute_length n s ≤ n * n + 1 := by
  obtain ⟨k, hk, _, hlen⟩ := compute_length_stabilises n s
  exact ⟨fun fuel hfuel => compute_length_loop_fuel n s fuel hfuel, by omega, by omega⟩

/-- C3 at `n = 3` and the state 84. -/
theorem C3_compute_length_terminates_bounded_witness :
    (∀ fuel, 3 * 3 + 1 ≤ fuel → compute_length_loop 3 fuel 84 1 = some (compute_length 3 84)) ∧
      1 ≤ compute_length 3 84 ∧ compute_length 3 84 ≤ 3 * 3 + 1 :=
  C3_compute_length_terminates_bounded 3 (by decide) (by decide) 84

/-! ## The transforms as symmetries of the grid -/

theorem rotate90_eq (n s : Nat) : rotate90 n s = applySym ⟨true, true, false⟩ n s := rfl
theorem rotate180_eq (n s : Nat) : rotate180 n s = applySym ⟨false, true, true⟩ n s := rfl
theorem rotate270_eq (n s : Nat) : rotate270 n s = applySym ⟨true, false, true⟩ n s := rfl
theorem reflectHorizontal_eq (n s : Nat) :
    reflectHorizontal n s = applySym ⟨false, false, true⟩ n s := rfl
theorem reflectVertical_eq (n s : Nat) :
    reflectVertical n s = applySym ⟨false, true, false⟩ n s := rfl
theorem reflectMainDiag_eq (n s : Nat) :
    reflectMainDiag n s = applySym ⟨true, false, false⟩ n s := rfl
theorem reflectAntiDiag_eq (n s : Nat) :
    reflectAntiDiag n s = applySym ⟨true, true, true⟩ n s := rfl

/-- A loop whose body only adds bits adds exactly the bits of its iterations. -/
theorem forRange_testBit_or (Q : Nat → Nat → Prop) (body : Nat → Nat → Nat)
    (hbody : ∀ i out p, (body i out).testBit p = true ↔ (out.testBit p = true ∨ Q i p))
    (k init p : Nat) :
    (forRange k body init).testBit p = true ↔
      (init.testBit p = true ∨ ∃ i, i < k ∧ Q i p) := by
  induction k with
  | zero => simp [forRange_zero]
  | succ k ih =>
    rw [forRange_succ, hbody, ih]
    constructor
    · rintro ((h | ⟨i, hi, hq⟩) | hq)
      · exact Or.inl h
      · exact Or.inr ⟨i, by omega, hq⟩
      · exact Or.inr ⟨k, by omega, hq⟩
    · rintro (h | ⟨i, hi, hq⟩)
      · exact Or.inl (Or.inl h)
      · rcases Nat.lt_or_ge i k with h1 | h1
        · exact Or.inl (Or.inr ⟨i, h1, hq⟩)
        · have : i = k := by omega
          subst this
          exact Or.inr hq

theorem applySym_testBit (g : Sym) (n s p : Nat) :
    (applySym g n s).testBit p = true ↔
      ∃ y, y < n ∧ ∃ x, x < n ∧
        (s.testBit (cellIndex n x y) = true ∧ cellIndex n (g.newX n x y) (g.newY n x y) = p) := by
  unfold applySym forYX
  rw [forRange_testBit_or
    (fun y p => ∃ x, x < n ∧
      (s.testBit (cellIndex n x y) = true ∧ cellIndex n (g.newX n x y) (g.newY n x y) = p))]
  · simp
  · intro y out p
    rw [forRange_testBit_or
      (fun x p => s.testBit (cellIndex n x y) = true ∧
        cellIndex n (g.newX n x y) (g.newY n x y) = p)]
    intro x out p
    beta_reduce
    by_cases h : s.testBit (cellIndex n x y) = true
    · rw [if_pos ((isFilled_ne_zero _ _).2 h), testBit_fillCell]
      simp [h]
    · rw [if_neg (fun hh => h ((isFilled_ne_zero _ _).1 hh))]
      simp [h]

theorem cellIndex_mod (n x y : Nat) (hx : x < n) : cellIndex n x y % n = x := by
  unfold cellIndex
  rw [Nat.add_comm, Nat.add_mul_mod_self_right, Nat.mod_eq_of_lt hx]

theorem cellIndex_div (n x y : Nat) (hx : x < n) : cellIndex n x y / n = y := by
  unfold cellIndex
  have hn : 0 < n := by omega
  rw [Nat.add_comm, Nat.add_mul_div_right _ _ hn, Nat.div_eq_of_lt hx, Nat.zero_add]

theorem cellIndex_inj (n x y x' y' : Nat) (hx : x < n) (hx' : x' < n)
    (h : cellIndex n x y = cellIndex n x' y') : x = x' ∧ y = y' := by
  constructor
  · rw [← cellIndex_mod n x y hx, h, cellIndex_mod n x' y' hx']
  · rw [← cellIndex_div n x y hx, h, cellIndex_div n x' y' hx']

theorem cellIndex_lt (n x y : Nat) (hx : x < n) (hy : y < n) : cellIndex n x y < n * n := by
  unfold cellIndex
  calc y * n + x < y * n + n := by omega
    _ = (y + 1) * n := by ring
    _ ≤ n * n := Nat.mul_le_mul_right n hy

theorem exists_cellIndex (n c : Nat) (hc : c < n * n) :
    ∃ x y, x < n ∧ y < n ∧ c = cellIndex n x y := by
  have hn : 0 < n := by
    rcases Nat.eq_zero_or_pos n with h | h
    · subst h; simp at hc
    · exact h
  refine ⟨c % n, c / n, Nat.mod_lt _ hn, ?_, ?_⟩
  · exact Nat.div_lt_of_lt_mul hc
  · unfold cellIndex
    rw [Nat.mul_comm]
    exact (Nat.div_add_mod c n).symm

theorem Sym.newX_lt (g : Sym) (n x y : Nat) (hx : x < n) (hy : y < n) : g.newX n x y < n := by
  rcases g with ⟨sw, fx, fy⟩
  cases sw <;> cases fx <;> simp [Sym.newX] <;> omega

theorem Sym.newY_lt (g : Sym) (n x y : Nat) (hx : x < n) (hy : y < n) : g.newY n x y < n := by
  rcases g with ⟨sw, fx, fy⟩
  cases sw <;> cases fy <;> simp [Sym.newY] <;> omega

theorem Sym.inv_newX (g : Sym) (n x y : Nat) (hx : x < n) (hy : y < n) :
    g.inv.newX n (g.newX n x y) (g.newY n x y) = x := by
  rcases g with ⟨sw, fx, fy⟩
  cases sw <;> cases fx <;> cases fy <;> simp [Sym.newX, Sym.newY, Sym.inv] <;> omega

theorem Sym.inv_newY (g : Sym) (n x y : Nat) (hx : x < n) (hy : y < n) :
    g.inv.newY n (g.newX n x y) (g.newY n x y) = y := by
  rcases g with ⟨sw, fx, fy⟩
  cases sw <;> cases fx <;> cases fy <;> simp [Sym.newX, Sym.newY, Sym.inv] <;> omega

theorem Sym.inv_inv (g : Sym) : g.inv.inv = g := by
  rcases g with ⟨sw, fx, fy⟩
  cases sw <;> cases fx <;> cases fy <;> rfl

theorem Sym.andThen_newX (g h : Sym) (n x y : Nat) (hx : x < n) (hy : y < n) :
    (g.andThen h).newX n x y = h.newX n (g.newX n x y) (g.newY n x y) := by
  rcases g with ⟨sw, fx, fy⟩
  rcases h with ⟨sw', fx', fy'⟩
  cases sw <;> cases fx <;> cases fy <;> cases sw' <;> cases fx' <;> cases fy' <;>
    simp [Sym.newX, Sym.newY, Sym.andThen] <;> omega

theorem Sym.andThen_newY (g h : Sym) (n x y : Nat) (hx : x < n) (hy : y < n) :
    (g.andThen h).newY n x y = h.newY n (g.newX n x y) (g.newY n x y) := by
  rcases g with ⟨sw, fx, fy⟩
  rcases h with ⟨sw', fx', fy'⟩
  cases sw <;> cases fx <;> cases fy <;> cases sw' <;> cases fx' <;> cases fy' <;>
    simp [Sym.newX, Sym.newY, Sym.andThen] <;> omega

/-- The image has bits only inside the grid. -/
theorem applySym_lt (g : Sym) (n s : Nat) : applySym g n s < 2 ^ (n * n) := by
  apply Nat.lt_pow_two_of_testBit
  intro p hp
  by_contra h
  have h' : (applySym g n s).testBit p = true := by simpa using h
  obtain ⟨y, hy, x, hx, _, hpos⟩ := (applySym_testBit g n s p).1 h'
  have := cellIndex_lt n _ _ (g.newX_lt n x y hx hy) (g.newY_lt n x y hx hy)
  omega

/-- Bit of the image at the image of a cell. -/
theorem applySym_testBit_cell (g : Sym) (n s x y : Nat) (hx : x < n) (hy : y < n) :
    (applySym g n s).testBit (cellIndex n (g.newX n x y) (g.newY n x y))
      = s.testBit (cellIndex n x y) := by
  rw [Bool.eq_iff_iff, applySym_testBit]
  constructor
  · rintro ⟨y', hy', x', hx', hbit, hpos⟩
    obtain ⟨h1, h2⟩ := cellIndex_inj n _ _ _ _ (g.newX_lt n x' y' hx' hy')
      (g.newX_lt n x y hx hy) hpos
    have e1 : x' = x := by
      rw [← g.inv_newX n x' y' hx' hy', h1, h2, g.inv_newX n x y hx hy]
    have e2 : y' = y := by
      rw [← g.inv_newY n x' y' hx' hy', h1, h2, g.inv_newY n x y hx hy]
    rw [← e1, ← e2]; exact hbit
  · intro h
    exact ⟨y, hy, x, hx, h, rfl⟩

/-- Every cell of the grid is the image of a cell. -/
theorem exists_preimage_cell (g : Sym) (n c : Nat) (hc : c < n * n) :
    ∃ x y, x < n ∧ y < n ∧ c = cellIndex n (g.newX n x y) (g.newY n x y) := by
  obtain ⟨X, Y, hX, hY, rfl⟩ := exists_cellIndex n c hc
  refine ⟨g.inv.newX n X Y, g.inv.newY n X Y, g.inv.newX_lt n X Y hX hY,
    g.inv.newY_lt n X Y hX hY, ?_⟩
  have h1 := g.inv.inv_newX n X Y hX hY
  have h2 := g.inv.inv_newY n X Y hX hY
  rw [Sym.inv_inv] at h1 h2
  rw [h1, h2]

theorem applySym_id (n s : Nat) (hs : s < 2 ^ (n * n)) : applySym ⟨false, false, false⟩ n s = s := by
  apply Nat.eq_of_testBit_eq
  intro p
  rw [Bool.eq_iff_iff, applySym_testBit]
  constructor
  · rintro ⟨y, hy, x, hx, hbit, hpos⟩
    simp only [Sym.newX, Sym.newY] at hpos
    simpa [← hpos] using hbit
  · intro h
    have hp : p < n * n := by
      by_contra hge
      have := Nat.testBit_lt_two_pow
        (lt_of_lt_of_le hs (Nat.pow_le_pow_right (by decide) (not_lt.1 hge)))
      rw [this] at h
      exact Bool.noConfusion h
    obtain ⟨x, y, hx, hy, rfl⟩ := exists_cellIndex n p hp
    exact ⟨y, hy, x, hx, h, by simp [Sym.newX, Sym.newY]⟩

theorem applySym_andThen (g h : Sym) (n s : Nat) :
    applySym h n (applySym g n s) = applySym (g.andThen h) n s := by
  apply Nat.eq_of_testBit_eq
  intro p
  rw [Bool.eq_iff_iff, applySym_testBit, applySym_testBit]
  constructor
  · rintro ⟨Y, hY, X, hX, hbit, hpos⟩
    obtain ⟨y, hy, x, hx, hbit', hpos'⟩ := (applySym_testBit g n s _).1 hbit
    obtain ⟨h1, h2⟩ := cellIndex_inj n _ _ _ _ (g.newX_lt n x y hx hy) hX hpos'
    refine ⟨y, hy, x, hx, hbit', ?_⟩
    rw [g.andThen_newX h n x y hx hy, g.andThen_newY h n x y hx hy, h1, h2]
    exact hpos
  · rintro ⟨y, hy, x, hx, hbit, hpos⟩
    refine ⟨g.newY n x y, g.newY_lt n x y hx hy, g.newX n x y, g.newX_lt n x y hx hy, ?_, ?_⟩
    · rw [applySym_testBit_cell g n s x y hx hy]; exact hbit
    · rw [← g.andThen_newX h n x y hx hy, ← g.andThen_newY h n x y hx hy]
      exact hpos

theorem Sym.mem_allSyms (g : Sym) : g ∈ allSyms := by
  rcases g with ⟨sw, fx, fy⟩
  cases sw <;> cases fx <;> cases fy <;> simp [allSyms]

theorem Sym.andThen_inv_left (g h : Sym) : h.andThen (h.inv.andThen g) = g := by
  rcases g with ⟨sw, fx, fy⟩
  rcases h with ⟨sw', fx', fy'⟩
  cases sw <;> cases fx <;> cases fy <;> cases sw' <;> cases fx' <;> cases fy' <;> rfl

/-! ## The canonical representative -/

theorem foldl_min_spec (l : List Nat) (a : Nat) :
    l.foldl (fun best ti => if ti < best then ti else best) a ≤ a ∧
    (∀ x ∈ l, l.foldl (fun best ti => if ti < best then ti else best) a ≤ x) ∧
    (l.foldl (fun best ti => if ti < best then ti else best) a = a ∨
      l.foldl (fun best ti => if ti < best then ti else best) a ∈ l) := by
  induction l generalizing a with
  | nil => simp
  | cons b l ih =>
    simp only [List.foldl_cons, List.mem_cons]
    obtain ⟨h1, h2, h3⟩ := ih (if b < a then b else a)
    refine ⟨?_, ?_, ?_⟩
    · refine le_trans h1 ?_
      split_ifs <;> omega
    · intro x hx
      rcases hx with rfl | hx
      · refine le_trans h1 ?_
        split_ifs <;> omega
      · exact h2 x hx
    · rcases h3 with h3 | h3
      · rw [h3]
        split_ifs
        · exact Or.inr (Or.inl rfl)
        · exact Or.inl rfl
      · exact Or.inr (Or.inr h3)

theorem getCanonicalRep_eq (n s : Nat) :
    getCanonicalRep n s =
      (images n s).tail.foldl (fun best ti => if ti < best then ti else best) s := rfl

theorem getCanonicalRep_mem (n s : Nat) : getCanonicalRep n s ∈ images n s := by
  rw [getCanonicalRep_eq]
  obtain ⟨_, _, h3⟩ := foldl_min_spec (images n s).tail s
  rcases h3 with h3 | h3
  · rw [h3]; simp [images]
  · exact List.mem_of_mem_tail h3

theorem getCanonicalRep_le (n s x : Nat) (hx : x ∈ images n s) : getCanonicalRep n s ≤ x := by
  rw [getCanonicalRep_eq]
  obtain ⟨h1, h2, _⟩ := foldl_min_spec (images n s).tail s
  have : x = s ∨ x ∈ (images n s).tail := by
    simpa [images] using hx
  rcases this with rfl | h
  · exact h1
  · exact h2 x h

theorem getCanonicalRep_le_self (n s : Nat) : getCanonicalRep n s ≤ s :=
  getCanonicalRep_le n s s (by simp [images])

theorem images_eq_map (n s : Nat) (hs : s < 2 ^ (n * n)) :
    images n s = allSyms.map (fun g => applySym g n s) := by
  simp only [allSyms, List.map, images]
  rw [applySym_id n s hs]
  rfl

theorem mem_images_iff (n s x : Nat) (hs : s < 2 ^ (n * n)) :
    x ∈ images n s ↔ ∃ g : Sym, x = applySym g n s := by
  rw [images_eq_map n s hs, List.mem_map]
  constructor
  · rintro ⟨g, _, rfl⟩; exact ⟨g, rfl⟩
  · rintro ⟨g, rfl⟩; exact ⟨g, g.mem_allSyms, rfl⟩

/-- Either the state or one of its images under a symmetry (no bound on the state). -/
theorem mem_images_cases (n s x : Nat) (hx : x ∈ images n s) :
    x = s ∨ ∃ g : Sym, x = applySym g n s := by
  simp only [images, List.mem_cons, List.mem_singleton, List.not_mem_nil, or_false,
    rotate90_eq, rotate180_eq, rotate270_eq, reflectHorizontal_eq, reflectVertical_eq,
    reflectMainDiag_eq, reflectAntiDiag_eq] at hx
  rcases hx with h | h | h | h | h | h | h | h
  · exact Or.inl h
  all_goals exact Or.inr ⟨_, h⟩

theorem images_applySym (g : Sym) (n s x : Nat) (hs : s < 2 ^ (n * n)) :
    x ∈ images n (applySym g n s) ↔ x ∈ images n s := by
  rw [mem_images_iff n _ x (applySym_lt g n s), mem_images_iff n s x hs]
  constructor
  · rintro ⟨h, rfl⟩
    exact ⟨g.andThen h, applySym_andThen g h n s⟩
  · rintro ⟨h, rfl⟩
    refine ⟨g.inv.andThen h, ?_⟩
    rw [applySym_andThen, Sym.andThen_inv_left]

theorem getCanonicalRep_applySym (g : Sym) (n s : Nat) (hs : s < 2 ^ (n * n)) :
    getCanonicalRep n (applySym g n s) = getCanonicalRep n s := by
  apply le_antisymm
  · apply getCanonicalRep_le
    rw [images_applySym g n s _ hs]
    exact getCanonicalRep_mem n s
  · apply getCanonicalRep_le
    rw [← images_applySym g n s _ hs]
    exact getCanonicalRep_mem n _

theorem getCanonicalRep_idem (n s : Nat) (hs : s < 2 ^ (n * n)) :
    getCanonicalRep n (getCanonicalRep n s) = getCanonicalRep n s := by
  obtain ⟨g, hg⟩ := (mem_images_iff n s _ hs).1 (getCanonicalRep_mem n s)
  calc getCanonicalRep n (getCanonicalRep n s)
      = getCanonicalRep n (applySym g n s) := by rw [hg]
    _ = getCanonicalRep n s := getCanonicalRep_applySym g n s hs

/-! ## Claims on the canonicaliser -/

/-- C4. For a grid size `n` in 1..8, every state `s < 2^(n*n)` and each of the
eight transforms `T` (the identity, the three rotations and the four
reflections): `getCanonicalRep (T s) = getCanonicalRep s`. -/
theorem C4_getCanonicalRep_invariant (n : Nat) (_hn1 : 1 ≤ n) (_hn8 : n ≤ 8) (s : Nat)
    (hs : s < 2 ^ (n * n)) :
    ∀ T ∈ ([fun x => x, rotate90 n, rotate180 n, rotate270 n, reflectHorizontal n,
        reflectVertical n, reflectMainDiag n, reflectAntiDiag n] : List (Nat → Nat)),
      getCanonicalRep n (T s) = getCanonicalRep n s := by
  intro T hT
  simp only [List.mem_cons, List.mem_singleton, List.not_mem_nil, or_false] at hT
  rcases hT with rfl | rfl | rfl | rfl | rfl | rfl | rfl | rfl
  · rfl
  · rw [rotate90_eq]; exact getCanonicalRep_applySym _ n s hs
  · rw [rotate180_eq]; exact getCanonicalRep_applySym _ n s hs
  · rw [rotate270_eq]; exact getCanonicalRep_applySym _ n s hs
  · rw [reflectHorizontal_eq]; exact getCanonicalRep_applySym _ n s hs
  · rw [reflectVertical_eq]; exact getCanonicalRep_applySym _ n s hs
  · rw [reflectMainDiag_eq]; exact getCanonicalRep_applySym _ n s hs
  · rw [reflectAntiDiag_eq]; exact getCanonicalRep_applySym _ n s hs

/-- C4 at `n = 3`, the state 384 (the two rightmost cells of the bottom row) and
the rotation by 90°. -/
theorem C4_getCanonicalRep_invariant_witness :
    getCanonicalRep 3 (rotate90 3 384) = getCanonicalRep 3 384 :=
  C4_getCanonicalRep_invariant 3 (by decide) (by decide) 384 (by decide) (rotate90 3)
    (List.Mem.tail _ (List.Mem.head _))

/-- C5. For a grid size `n` in 1..8 and every state `s < 2^(n*n)`,
`getCanonicalRep` is idempotent:
`getCanonicalRep (getCanonicalRep s) = getCanonicalRep s`. -/
theorem C5_getCanonicalRep_idempotent (n : Nat) (_hn1 : 1 ≤ n) (_hn8 : n ≤ 8) (s : Nat)
    (hs : s < 2 ^ (n * n)) :
    getCanonicalRep n (getCanonicalRep n s) = getCanonicalRep n s :=
  getCanonicalRep_idem n s hs

/-- C5 at `n = 3` and the state 384, whose canonical representative is 3. -/
theorem C5_getCanonicalRep_idempotent_witness :
    getCanonicalRep 3 (getCanonicalRep 3 384) = getCanonicalRep 3 384 :=
  C5_getCanonicalRep_idempotent 3 (by decide) (by decide) 384 (by decide)

/-- C6. For a grid size `n` in 1..8 and every state `s`, `getCanonicalRep s` is
the numerically smallest of the eight images of `s` (the state itself, its three
rotations and its four reflections): it is one of them and is `≤` each of them. -/
theorem C6_getCanonicalRep_is_minimum (n : Nat) (_hn1 : 1 ≤ n) (_hn8 : n ≤ 8) (s : Nat) :
    getCanonicalRep n s ∈
        [s, rotate90 n s, rotate180 n s, rotate270 n s, reflectHorizontal n s,
          reflectVertical n s, reflectMainDiag n s, reflectAntiDiag n s] ∧
      ∀ x ∈ [s, rotate90 n s, rotate180 n s, rotate270 n s, reflectHorizontal n s,
          reflectVertical n s, reflectMainDiag n s, reflectAntiDiag n s],
        getCanonicalRep n s ≤ x :=
  ⟨getCanonicalRep_mem n s, fun x hx => getCanonicalRep_le n s x hx⟩

/-- C6 at `n = 3` and the state 384. -/
theorem C6_getCanonicalRep_is_minimum_witness :
    getCanonicalRep 3 384 ∈
        [384, rotate90 3 384, rotate180 3 384, rotate270 3 384, reflectHorizontal 3 384,
          reflectVertical 3 384, reflectMainDiag 3 384, reflectAntiDiag 3 384] ∧
      ∀ x ∈ [384, rotate90 3 384, rotate180 3 384, rotate270 3 384, reflectHorizontal 3 384,
          reflectVertical 3 384, reflectMainDiag 3 384, reflectAntiDiag 3 384],
        getCanonicalRep 3 384 ≤ x :=
  C6_getCanonicalRep_is_minimum 3 (by decide) (by decide) 384

/-! ## The neighbour masks -/

/-- A loop whose body can only switch an observation on switches it on exactly
when one of its iterations does. -/
theorem forRange_obs {α : Type} (obs : α → Prop) (Q : Nat → Prop) (body : Nat → α → α)
    (hbody : ∀ i a, obs (body i a) ↔ (obs a ∨ Q i)) (k : Nat) (init : α) :
    obs (forRange k body init) ↔ (obs init ∨ ∃ i, i < k ∧ Q i) := by
  induction k with
  | zero => simp [forRange_zero]
  | succ k ih =>
    rw [forRange_succ, hbody, ih]
    constructor
    · rintro ((h | ⟨i, hi, hq⟩) | hq)
      · exact Or.inl h
      · exact Or.inr ⟨i, by omega, hq⟩
      · exact Or.inr ⟨k, by omega, hq⟩
    · rintro (h | ⟨i, hi, hq⟩)
      · exact Or.inl (Or.inl h)
      · rcases Nat.lt_or_ge i k with h1 | h1
        · exact Or.inl (Or.inr ⟨i, h1, hq⟩)
        · have : i = k := by omega
          subst this
          exact Or.inr hq

theorem testBit_orAt (tbl : Nat → Nat) (c p j b : Nat) :
    (orAt tbl c (1 <<< p) j).testBit b = true ↔
      ((tbl j).testBit b = true ∨ (j = c ∧ b = p)) := by
  unfold orAt
  by_cases h : j = c
  · rw [if_pos h, Nat.testBit_or, Nat.one_shiftLeft, Nat.testBit_two_pow, Bool.or_eq_true,
      decide_eq_true_eq]
    constructor
    · rintro (h' | h')
      · exact Or.inl h'
      · exact Or.inr ⟨h, h'.symm⟩
    · rintro (h' | h')
      · exact Or.inl h'
      · exact Or.inr h'.2.symm
  · rw [if_neg h]
    simp [h]

theorem neighborMask_testBit (n j b : Nat) :
    (neighborMask n j).testBit b = true ↔
      ∃ y, y < n ∧ ∃ x, x < n ∧ (j = cellIndex n x y ∧ NB n x y b) := by
  unfold neighborMask buildNeighborMasks forYX
  rw [forRange_obs (fun tbl : Nat → Nat => (tbl j).testBit b = true)
    (fun y => ∃ x, x < n ∧ (j = cellIndex n x y ∧ NB n x y b))]
  · simp
  · intro y tbl
    rw [forRange_obs (fun tbl : Nat → Nat => (tbl j).testBit b = true)
      (fun x => j = cellIndex n x y ∧ NB n x y b)]
    intro x tbl
    unfold NB
    beta_reduce
    by_cases h1 : y > 0 <;> by_cases h2 : y < n - 1 <;> by_cases h3 : x > 0 <;>
      by_cases h4 : x < n - 1 <;>
      simp only [h1, h2, h3, h4, if_true, if_false, testBit_orAt] <;> tauto

theorem NB_iff (n x y b : Nat) (hx : x < n) (hy : y < n) :
    NB n x y b ↔ ∃ x' y', x' < n ∧ y' < n ∧ b = cellIndex n x' y' ∧ NBc x y x' y' := by
  unfold NB NBc
  constructor
  · rintro (⟨h, rfl⟩ | ⟨h, rfl⟩ | ⟨h, rfl⟩ | ⟨h, rfl⟩)
    · exact ⟨x, y - 1, hx, by omega, rfl, Or.inl ⟨rfl, by omega⟩⟩
    · exact ⟨x, y + 1, hx, by omega, rfl, Or.inr (Or.inl ⟨rfl, rfl⟩)⟩
    · exact ⟨x - 1, y, by omega, hy, rfl, Or.inr (Or.inr (Or.inl ⟨by omega, rfl⟩))⟩
    · exact ⟨x + 1, y, by omega, hy, rfl, Or.inr (Or.inr (Or.inr ⟨rfl, rfl⟩))⟩
  · rintro ⟨x', y', hx', hy', rfl, (⟨h1, h2⟩ | ⟨h1, h2⟩ | ⟨h1, h2⟩ | ⟨h1, h2⟩)⟩
    · subst h1; subst h2
      exact Or.inl ⟨by omega, by simp⟩
    · subst h1; subst h2
      exact Or.inr (Or.inl ⟨by omega, rfl⟩)
    · subst h1; subst h2
      exact Or.inr (Or.inr (Or.inl ⟨by omega, by simp⟩))
    · subst h1; subst h2
      exact Or.inr (Or.inr (Or.inr ⟨by omega, rfl⟩))

theorem neighborMask_testBit_cell (n x y b : Nat) (hx : x < n) (hy : y < n) :
    (neighborMask n (cellIndex n x y)).testBit b = true ↔
      ∃ x' y', x' < n ∧ y' < n ∧ b = cellIndex n x' y' ∧ NBc x y x' y' := by
  rw [neighborMask_testBit, ← NB_iff n x y b hx hy]
  constructor
  · rintro ⟨y', hy', x', hx', hc, hnb⟩
    obtain ⟨rfl, rfl⟩ := cellIndex_inj n _ _ _ _ hx hx' hc
    exact hnb
  · intro h
    exact ⟨y, hy, x, hx, rfl, h⟩

theorem two_le_popcount64_iff (m : Nat) :
    2 ≤ popcount64 m ↔
      ∃ a b, a < 64 ∧ b < 64 ∧ a ≠ b ∧ m.testBit a = true ∧ m.testBit b = true := by
  rw [popcount64_eq_card]
  change 1 < _ ↔ _
  rw [Finset.one_lt_card]
  simp only [Finset.mem_filter, Finset.mem_range]
  constructor
  · rintro ⟨a, ⟨ha, hma⟩, b, ⟨hb, hmb⟩, hab⟩
    exact ⟨a, b, ha, hb, hab, hma, hmb⟩
  · rintro ⟨a, b, ha, hb, hab, hma, hmb⟩
    exact ⟨a, ⟨ha, hma⟩, b, ⟨hb, hmb⟩, hab⟩

theorem grid_le_64 (n : Nat) (hn8 : n ≤ 8) : n * n ≤ 64 :=
  calc n * n ≤ 8 * 8 := Nat.mul_le_mul hn8 hn8
    _ = 64 := rfl

theorem fills_cell (n s x y : Nat) (hn8 : n ≤ 8) (hx : x < n) (hy : y < n) :
    fills n s (cellIndex n x y) ↔
      (s.testBit (cellIndex n x y) = false ∧ TwoNbrs n s x y) := by
  unfold fills TwoNbrs
  rw [two_le_popcount64_iff]
  have h64 := grid_le_64 n hn8
  constructor
  · rintro ⟨h0, a, b, _, _, hab, hma, hmb⟩
    rw [Nat.testBit_and, Bool.and_eq_true] at hma hmb
    obtain ⟨xa, ya, hxa, hya, rfl, hna⟩ := (neighborMask_testBit_cell n x y a hx hy).1 hma.2
    obtain ⟨xb, yb, hxb, hyb, rfl, hnb⟩ := (neighborMask_testBit_cell n x y b hx hy).1 hmb.2
    refine ⟨h0, xa, ya, xb, yb, ⟨hxa, hya, hxb, hyb⟩, ?_, hna, hnb, hma.1, hmb.1⟩
    rintro ⟨rfl, rfl⟩
    exact hab rfl
  · rintro ⟨h0, xa, ya, xb, yb, ⟨hxa, hya, hxb, hyb⟩, hne, hna, hnb, hsa, hsb⟩
    refine ⟨h0, cellIndex n xa ya, cellIndex n xb yb, ?_, ?_, ?_, ?_, ?_⟩
    · have := cellIndex_lt n xa ya hxa hya; omega
    · have := cellIndex_lt n xb yb hxb hyb; omega
    · intro h
      exact hne (cellIndex_inj n _ _ _ _ hxa hxb h)
    · rw [Nat.testBit_and, Bool.and_eq_true]
      exact ⟨hsa, (neighborMask_testBit_cell n x y _ hx hy).2 ⟨xa, ya, hxa, hya, rfl, hna⟩⟩
    · rw [Nat.testBit_and, Bool.and_eq_true]
      exact ⟨hsb, (neighborMask_testBit_cell n x y _ hx hy).2 ⟨xb, yb, hxb, hyb, rfl, hnb⟩⟩

/-! ## The step commutes with the symmetries -/

theorem Sym.NBc_iff (g : Sym) (n x y x' y' : Nat) (hx : x < n) (hy : y < n)
    (hx' : x' < n) (hy' : y' < n) :
    NBc (g.newX n x y) (g.newY n x y) (g.newX n x' y') (g.newY n x' y') ↔ NBc x y x' y' := by
  rcases g with ⟨sw, fx, fy⟩
  unfold NBc
  cases sw <;> cases fx <;> cases fy <;> simp only [Sym.newX, Sym.newY] <;>
    simp <;> omega

theorem Sym.exists_preimage (g : Sym) (n X Y : Nat) (hX : X < n) (hY : Y < n) :
    ∃ x y, x < n ∧ y < n ∧ g.newX n x y = X ∧ g.newY n x y = Y := by
  refine ⟨g.inv.newX n X Y, g.inv.newY n X Y, g.inv.newX_lt n X Y hX hY,
    g.inv.newY_lt n X Y hX hY, ?_, ?_⟩
  · have h1 := g.inv.inv_newX n X Y hX hY
    rw [Sym.inv_inv] at h1
    exact h1
  · have h2 := g.inv.inv_newY n X Y hX hY
    rw [Sym.inv_inv] at h2
    exact h2

theorem Sym.newXY_inj (g : Sym) (n x y x' y' : Nat) (hx : x < n) (hy : y < n)
    (hx' : x' < n) (hy' : y' < n)
    (h1 : g.newX n x y = g.newX n x' y') (h2 : g.newY n x y = g.newY n x' y') :
    x = x' ∧ y = y' := by
  constructor
  · rw [← g.inv_newX n x y hx hy, h1, h2, g.inv_newX n x' y' hx' hy']
  · rw [← g.inv_newY n x y hx hy, h1, h2, g.inv_newY n x' y' hx' hy']

theorem twoNbrs_applySym (g : Sym) (n s x y : Nat) (hx : x < n) (hy : y < n) :
    TwoNbrs n (applySym g n s) (g.newX n x y) (g.newY n x y) ↔ TwoNbrs n s x y := by
  unfold TwoNbrs
  constructor
  · rintro ⟨Xa, Ya, Xb, Yb, ⟨hXa, hYa, hXb, hYb⟩, hne, hna, hnb, hsa, hsb⟩
    obtain ⟨xa, ya, hxa, hya, rfl, rfl⟩ := g.exists_preimage n Xa Ya hXa hYa
    obtain ⟨xb, yb, hxb, hyb, rfl, rfl⟩ := g.exists_preimage n Xb Yb hXb hYb
    refine ⟨xa, ya, xb, yb, ⟨hxa, hya, hxb, hyb⟩, ?_, ?_, ?_, ?_, ?_⟩
    · rintro ⟨rfl, rfl⟩
      exact hne ⟨rfl, rfl⟩
    · exact (g.NBc_iff n x y xa ya hx hy hxa hya).1 hna
    · exact (g.NBc_iff n x y xb yb hx hy hxb hyb).1 hnb
    · rw [← applySym_testBit_cell g n s xa ya hxa hya]; exact hsa
    · rw [← applySym_testBit_cell g n s xb yb hxb hyb]; exact hsb
  · rintro ⟨xa, ya, xb, yb, ⟨hxa, hya, hxb, hyb⟩, hne, hna, hnb, hsa, hsb⟩
    refine ⟨g.newX n xa ya, g.newY n xa ya, g.newX n xb yb, g.newY n xb yb,
      ⟨g.newX_lt n xa ya hxa hya, g.newY_lt n xa ya hxa hya,
        g.newX_lt n xb yb hxb hyb, g.newY_lt n xb yb hxb hyb⟩, ?_, ?_, ?_, ?_, ?_⟩
    · rintro ⟨h1, h2⟩
      exact hne (g.newXY_inj n xa ya xb yb hxa hya hxb hyb h1 h2)
    · exact (g.NBc_iff n x y xa ya hx hy hxa hya).2 hna
    · exact (g.NBc_iff n x y xb yb hx hy hxb hyb).2 hnb
    · rw [applySym_testBit_cell g n s xa ya hxa hya]; exact hsa
    · rw [applySym_testBit_cell g n s xb yb hxb hyb]; exact hsb

theorem fills_applySym (g : Sym) (n s x y : Nat) (hn8 : n ≤ 8) (hx : x < n) (hy : y < n) :
    fills n (applySym g n s) (cellIndex n (g.newX n x y) (g.newY n x y)) ↔
      fills n s (cellIndex n x y) := by
  rw [fills_cell n _ _ _ hn8 (g.newX_lt n x y hx hy) (g.newY_lt n x y hx hy),
    fills_cell n s x y hn8 hx hy, applySym_testBit_cell g n s x y hx hy,
    twoNbrs_applySym g n s x y hx hy]

theorem applySym_testBit_ge (g : Sym) (n s p : Nat) (hp : n * n ≤ p) :
    (applySym g n s).testBit p = false :=
  Nat.testBit_lt_two_pow
    (lt_of_lt_of_le (applySym_lt g n s) (Nat.pow_le_pow_right (by decide) hp))

/-- The step commutes with every symmetry of the grid. -/
theorem stepState_applySym (g : Sym) (n s : Nat) (hn8 : n ≤ 8) :
    stepState n (applySym g n s) = applySym g n (stepState n s) := by
  apply Nat.eq_of_testBit_eq
  intro p
  rcases Nat.lt_or_ge p (n * n) with hp | hp
  · obtain ⟨x, y, hx, hy, rfl⟩ := exists_preimage_cell g n p hp
    rw [applySym_testBit_cell g n _ x y hx hy, stepState_testBit, stepState_testBit,
      applySym_testBit_cell g n s x y hx hy]
    congr 1
    have h1 := cellIndex_lt n x y hx hy
    have h2 := fills_applySym g n s x y hn8 hx hy
    simp only [hp, h1, true_and, h2]
  · rw [applySym_testBit_ge g n _ p hp, stepState_testBit, applySym_testBit_ge g n s p hp]
    have : ¬ p < n * n := by omega
    simp [this]

theorem exists_fills_applySym (g : Sym) (n s : Nat) (hn8 : n ≤ 8) :
    (∃ c, c < n * n ∧ fills n (applySym g n s) c) ↔ (∃ c, c < n * n ∧ fills n s c) := by
  constructor
  · rintro ⟨c, hc, hf⟩
    obtain ⟨x, y, hx, hy, rfl⟩ := exists_preimage_cell g n c hc
    exact ⟨cellIndex n x y, cellIndex_lt n x y hx hy, (fills_applySym g n s x y hn8 hx hy).1 hf⟩
  · rintro ⟨c, hc, hf⟩
    obtain ⟨x, y, hx, hy, rfl⟩ := exists_cellIndex n c hc
    exact ⟨_, cellIndex_lt n _ _ (g.newX_lt n x y hx hy) (g.newY_lt n x y hx hy),
      (fills_applySym g n s x y hn8 hx hy).2 hf⟩

theorem stepState_iterate_applySym (g : Sym) (n s k : Nat) (hn8 : n ≤ 8) :
    (stepState n)^[k] (applySym g n s) = applySym g n ((stepState n)^[k] s) := by
  induction k generalizing s with
  | zero => rfl
  | succ k ih =>
    rw [Function.iterate_succ_apply, Function.iterate_succ_apply,
      stepState_applySym g n s hn8, ih]

theorem stabilisesAt_applySym (g : Sym) (n s k : Nat) (hn8 : n ≤ 8)
    (h : StabilisesAt n s k) : StabilisesAt n (applySym g n s) k := by
  have key : ∀ t, stepState n (applySym g n t) = applySym g n t ↔ stepState n t = t := by
    intro t
    rw [← not_iff_not]
    change stepState n (applySym g n t) ≠ applySym g n t ↔ stepState n t ≠ t
    rw [stepState_ne_iff_fills, stepState_ne_iff_fills, exists_fills_applySym g n t hn8]
  refine ⟨?_, ?_⟩
  · rw [stepState_iterate_applySym g n s k hn8, key]
    exact h.1
  · intro j hj
    rw [stepState_iterate_applySym g n s j hn8, Ne, key]
    exact h.2 j hj

/-- The stabilisation length is invariant under every symmetry of the grid. -/
theorem compute_length_applySym (g : Sym) (n s : Nat) (hn8 : n ≤ 8) :
    compute_length n (applySym g n s) = compute_length n s := by
  obtain ⟨k, _, hst, hlen⟩ := compute_length_stabilises n s
  rw [hlen]
  exact compute_length_eq_of_stabilisesAt n _ k (stabilisesAt_applySym g n s k hn8 hst)

theorem compute_length_getCanonicalRep (n s : Nat) (hn8 : n ≤ 8) :
    compute_length n (getCanonicalRep n s) = compute_length n s := by
  rcases mem_images_cases n s _ (getCanonicalRep_mem n s) with h | ⟨g, hg⟩
  · rw [h]
  · rw [hg]
    exact compute_length_applySym g n s hn8

/-! ## The partition of the range -/

theorem partitionLoop_length (c k start r : Nat) :
    (partitionLoop c k start r).length = k := by
  induction k generalizing start r with
  | zero => rfl
  | succ k ih =>
    unfold partitionLoop
    split_ifs <;> simp [ih]

theorem partitionLoop_getD (c k start r i : Nat) (hi : i < k) :
    (partitionLoop c k start r).getD i (0, 0)
      = (start + i * c + min i r, start + (i + 1) * c + min (i + 1) r) := by
  induction k generalizing start r i with
  | zero => omega
  | succ k ih =>
    unfold partitionLoop
    by_cases hr : r > 0
    · simp only [hr, if_true]
      cases i with
      | zero =>
        simp only [List.getD_cons_zero, Nat.zero_mul, Nat.zero_add, Nat.one_mul, Prod.mk.injEq]
        omega
      | succ i =>
        rw [List.getD_cons_succ, ih _ _ i (by omega)]
        simp only [Prod.mk.injEq, Nat.add_mul, Nat.one_mul]
        omega
    · simp only [hr, if_false]
      have hr0 : r = 0 := by omega
      subst hr0
      cases i with
      | zero => simp
      | succ i =>
        rw [List.getD_cons_succ, ih _ _ i (by omega)]
        simp only [Prod.mk.injEq, Nat.add_mul, Nat.one_mul]
        omega

/-- Start of the `i`-th range. -/
theorem partition_getD (T t i : Nat) (hi : i < t) :
    (partition T t).getD i (0, 0)
      = (i * (T / t) + min i (T % t), (i + 1) * (T / t) + min (i + 1) (T % t)) := by
  unfold partition
  simp only []
  rw [partitionLoop_getD _ _ _ _ _ hi]
  simp

theorem partition_bound_mono (c r i j : Nat) (h : i ≤ j) :
    i * c + min i r ≤ j * c + min j r := by
  have h1 : i * c ≤ j * c := Nat.mul_le_mul_right c h
  omega

theorem partition_bound_last (T t : Nat) (ht : 1 ≤ t) :
    t * (T / t) + min t (T % t) = T := by
  have h1 : T % t < t := Nat.mod_lt _ (by omega)
  have h2 := Nat.div_add_mod T t
  rw [Nat.min_eq_right (by omega)]
  exact h2

theorem partition_bound_find (c r s : Nat) :
    ∀ j, s < j * c + min j r →
      ∃ i, i < j ∧ i * c + min i r ≤ s ∧ s < (i + 1) * c + min (i + 1) r := by
  intro j
  induction j with
  | zero => intro h; simp at h
  | succ j ih =>
    intro h
    rcases Nat.lt_or_ge s (j * c + min j r) with h1 | h1
    · obtain ⟨i, hi, h2, h3⟩ := ih h1
      exact ⟨i, by omega, h2, h3⟩
    · exact ⟨j, by omega, h1, h⟩

/-- C9. For a total state count `T` and a thread count `t ≥ 1`, the `t` ranges
`[start_i, end_i)` computed by `multithreaded.c` are contiguous (`start_0 = 0`,
`start_(i+1) = end_i`, `end_(t-1) = T`), pairwise disjoint, never reach beyond
`T`, and their union is exactly `[0, T)`; range `i` has size `T/t + 1` when
`i < T mod t` and size `T/t` otherwise. -/
theorem C9_partition_contiguous_cover (T t : Nat) (ht : 1 ≤ t) :
    (partition T t).length = t ∧
    ((partition T t).getD 0 (0, 0)).1 = 0 ∧
    (∀ i, i + 1 < t →
      ((partition T t).getD (i + 1) (0, 0)).1 = ((partition T t).getD i (0, 0)).2) ∧
    ((partition T t).getD (t - 1) (0, 0)).2 = T ∧
    (∀ i, i < t →
      ((partition T t).getD i (0, 0)).2
        = ((partition T t).getD i (0, 0)).1 + T / t + (if i < T % t then 1 else 0)) ∧
    (∀ i, i < t → ((partition T t).getD i (0, 0)).2 ≤ T) ∧
    (∀ i j, i < j → j < t → ∀ s,
      ¬ (((partition T t).getD i (0, 0)).1 ≤ s ∧ s < ((partition T t).getD i (0, 0)).2 ∧
          ((partition T t).getD j (0, 0)).1 ≤ s ∧ s < ((partition T t).getD j (0, 0)).2)) ∧
    (∀ s, s < T ↔
      ∃ i, i < t ∧ ((partition T t).getD i (0, 0)).1 ≤ s ∧
        s < ((partition T t).getD i (0, 0)).2) := by
  have hlast := partition_bound_last T t ht
  refine ⟨partitionLoop_length _ _ _ _, ?_, ?_, ?_, ?_, ?_, ?_, ?_⟩
  · rw [partition_getD T t 0 (by omega)]
    simp
  · intro i hi
    rw [partition_getD T t (i + 1) hi, partition_getD T t i (by omega)]
  · rw [partition_getD T t (t - 1) (by omega)]
    have : t - 1 + 1 = t := by omega
    simp only [this]
    exact hlast
  · intro i hi
    rw [partition_getD T t i hi]
    simp only [Nat.add_mul, Nat.one_mul]
    split_ifs <;> omega
  · intro i hi
    rw [partition_getD T t i hi]
    have := partition_bound_mono (T / t) (T % t) (i + 1) t (by omega)
    simp only []
    omega
  · intro i j hij hj s
    rw [partition_getD T t i (by omega), partition_getD T t j hj]
    have := partition_bound_mono (T / t) (T % t) (i + 1) j (by omega)
    simp only []
    omega
  · intro s
    constructor
    · intro hs
      rw [← hlast] at hs
      obtain ⟨i, hi, h1, h2⟩ := partition_bound_find (T / t) (T % t) s t hs
      refine ⟨i, hi, ?_⟩
      rw [partition_getD T t i hi]
      exact ⟨h1, h2⟩
    · rintro ⟨i, hi, _, h2⟩
      rw [partition_getD T t i hi] at h2
      have := partition_bound_mono (T / t) (T % t) (i + 1) t (by omega)
      simp only [] at h2
      omega

/-- C9 for 16 states and 3 threads: the ranges are `[0,6)`, `[6,11)`, `[11,16)`. -/
theorem C9_partition_contiguous_cover_witness :
    (partition 16 3).length = 3 ∧
    ((partition 16 3).getD 0 (0, 0)).1 = 0 ∧
    (∀ i, i + 1 < 3 →
      ((partition 16 3).getD (i + 1) (0, 0)).1 = ((partition 16 3).getD i (0, 0)).2) ∧
    ((partition 16 3).getD (3 - 1) (0, 0)).2 = 16 ∧
    (∀ i, i < 3 →
      ((partition 16 3).getD i (0, 0)).2
        = ((partition 16 3).getD i (0, 0)).1 + 16 / 3 + (if i < 16 % 3 then 1 else 0)) ∧
    (∀ i, i < 3 → ((partition 16 3).getD i (0, 0)).2 ≤ 16) ∧
    (∀ i j, i < j → j < 3 → ∀ s,
      ¬ (((partition 16 3).getD i (0, 0)).1 ≤ s ∧ s < ((partition 16 3).getD i (0, 0)).2 ∧
          ((partition 16 3).getD j (0, 0)).1 ≤ s ∧ s < ((partition 16 3).getD j (0, 0)).2)) ∧
    (∀ s, s < 16 ↔
      ∃ i, i < 3 ∧ ((partition 16 3).getD i (0, 0)).1 ≤ s ∧
        s < ((partition 16 3).getD i (0, 0)).2) :=
  C9_partition_contiguous_cover 16 3 (by decide)

/-! ## The exhaustive searches -/

theorem simpleSearch_eq (n T : Nat) :
    simpleSearch n T = scanKeep (fun s => s = getCanonicalRep n s) (compute_length n) T := by
  unfold simpleSearch scanKeep
  congr 1
  funext s acc
  by_cases h : s = getCanonicalRep n s
  · rw [if_neg (not_not.2 h), if_pos h]
    rfl
  · rw [if_pos h, if_neg h]

theorem scanAll_eq (n T : Nat) :
    scanAll n T = scanKeep (fun _ => True) (compute_length n) T := by
  rfl

/-- What a scan has found after the states below `T`. -/
theorem scanKeep_spec (keep : Nat → Prop) [DecidablePred keep] (f : Nat → Nat) (T : Nat) :
    (∀ s, s < T → keep s → f s ≤ (scanKeep keep f T).1) ∧
    ((scanKeep keep f T = (0, 0) ∧ ∀ s, s < T → keep s → f s = 0) ∨
      ((scanKeep keep f T).2 < T ∧ keep (scanKeep keep f T).2 ∧
        f (scanKeep keep f T).2 = (scanKeep keep f T).1 ∧ 0 < (scanKeep keep f T).1 ∧
        ∀ s, s < (scanKeep keep f T).2 → keep s → f s < (scanKeep keep f T).1)) := by
  induction T with
  | zero =>
    refine ⟨fun s hs => by omega, Or.inl ⟨?_, fun s hs => by omega⟩⟩
    simp [scanKeep, forRange_zero]
  | succ T ih =>
    have hstep : scanKeep keep f (T + 1)
        = if keep T then offer (scanKeep keep f T) (f T, T) else scanKeep keep f T := by
      unfold scanKeep
      rw [forRange_succ]
    obtain ⟨ih1, ih2⟩ := ih
    by_cases hk : keep T
    · by_cases hgt : f T > (scanKeep keep f T).1
      · have hr : scanKeep keep f (T + 1) = (f T, T) := by
          rw [hstep, if_pos hk]; unfold offer; rw [if_pos hgt]
        rw [hr]
        refine ⟨?_, Or.inr ⟨by simp, hk, rfl, by simp only; omega, ?_⟩⟩
        · intro s hs hks
          rcases Nat.lt_or_ge s T with h | h
          · have := ih1 s h hks; simp only; omega
          · have : s = T := by omega
            subst this; exact le_refl _
        · intro s hs hks
          have := ih1 s hs hks
          simp only at hs ⊢; omega
      · have hr : scanKeep keep f (T + 1) = scanKeep keep f T := by
          rw [hstep, if_pos hk]; unfold offer; rw [if_neg hgt]
        rw [hr]
        refine ⟨?_, ?_⟩
        · intro s hs hks
          rcases Nat.lt_or_ge s T with h | h
          · exact ih1 s h hks
          · have : s = T := by omega
            subst this; omega
        · rcases ih2 with ⟨h0, hz⟩ | ⟨h1, h2, h3, h4, h5⟩
          · left
            refine ⟨h0, ?_⟩
            intro s hs hks
            rcases Nat.lt_or_ge s T with h | h
            · exact hz s h hks
            · have : s = T := by omega
              subst this
              rw [h0] at hgt
              simp only at hgt; omega
          · right
            exact ⟨by omega, h2, h3, h4, h5⟩
    · have hr : scanKeep keep f (T + 1) = scanKeep keep f T := by
        rw [hstep, if_neg hk]
      rw [hr]
      refine ⟨?_, ?_⟩
      · intro s hs hks
        rcases Nat.lt_or_ge s T with h | h
        · exact ih1 s h hks
        · have : s = T := by omega
          subst this; exact absurd hks hk
      · rcases ih2 with ⟨h0, hz⟩ | ⟨h1, h2, h3, h4, h5⟩
        · left
          refine ⟨h0, ?_⟩
          intro s hs hks
          rcases Nat.lt_or_ge s T with h | h
          · exact hz s h hks
          · have : s = T := by omega
            subst this; exact absurd hks hk
        · right
          exact ⟨by omega, h2, h3, h4, h5⟩

theorem compute_length_pos (n s : Nat) : 1 ≤ compute_length n s := by
  obtain ⟨k, _, _, hlen⟩ := compute_length_stabilises n s
  omega

theorem totalStates_le (n : Nat) : totalStates n ≤ 2 ^ (n * n) := by
  unfold totalStates
  rw [Nat.one_shiftLeft]
  exact le_trans (Nat.mod_le _ _) (Nat.pow_le_pow_right (by decide) (Nat.mod_le _ _))

theorem totalStates_lt (n : Nat) : totalStates n < 2 ^ 64 := by
  unfold totalStates
  exact Nat.mod_lt _ (by decide)

/-- A scan of all the states below `T > 0` with a positive score finds the
maximum and the lowest state that attains it. -/
theorem scanKeep_true_spec (f : Nat → Nat) (hf : ∀ s, 1 ≤ f s) (T : Nat) (hT : 0 < T) :
    (scanKeep (fun _ => True) f T).2 < T ∧
      f (scanKeep (fun _ => True) f T).2 = (scanKeep (fun _ => True) f T).1 ∧
      (∀ s, s < T → f s ≤ (scanKeep (fun _ => True) f T).1) ∧
      (∀ s, s < T → f s = (scanKeep (fun _ => True) f T).1 →
        (scanKeep (fun _ => True) f T).2 ≤ s) := by
  obtain ⟨h1, h2⟩ := scanKeep_spec (fun _ => True) f T
  rcases h2 with ⟨_, hz⟩ | ⟨h3, _, h5, _, h7⟩
  · have := hz 0 hT trivial
    have := hf 0
    omega
  · refine ⟨h3, h5, fun s hs => h1 s hs trivial, ?_⟩
    intro s _ hfs
    by_contra hlt
    have := h7 s (by omega) trivial
    omega

theorem scanKeep_zero (keep : Nat → Prop) [DecidablePred keep] (f : Nat → Nat) :
    scanKeep keep f 0 = (0, 0) := by
  simp [scanKeep, forRange_zero]

/-- The pruned scan finds what the scan of all states finds. -/
theorem simpleSearch_eq_scanAll (n T : Nat) (hn8 : n ≤ 8) (hT : T ≤ 2 ^ (n * n)) :
    simpleSearch n T = scanAll n T := by
  rw [simpleSearch_eq, scanAll_eq]
  rcases Nat.eq_zero_or_pos T with h0 | hpos
  · subst h0
    rw [scanKeep_zero, scanKeep_zero]
  · obtain ⟨a1, a2, a3, a4⟩ := scanKeep_true_spec (compute_length n) (compute_length_pos n) T hpos
    obtain ⟨b1, b2⟩ := scanKeep_spec (fun s => s = getCanonicalRep n s) (compute_length n) T
    generalize scanKeep (fun _ => True) (compute_length n) T = r at a1 a2 a3 a4
    generalize scanKeep (fun s => s = getCanonicalRep n s) (compute_length n) T = r' at b1 b2
    have hcanon0 : 0 = getCanonicalRep n 0 := by
      have := getCanonicalRep_le_self n 0
      omega
    rcases b2 with ⟨_, hz⟩ | ⟨c1, c2, c3, _, c5⟩
    · have := hz 0 hpos hcanon0
      have := compute_length_pos n 0
      omega
    · -- the canonical representative of the best state of the full scan
      have hr2 : r.2 < 2 ^ (n * n) := by omega
      have hc_le : getCanonicalRep n r.2 ≤ r.2 := getCanonicalRep_le_self n r.2
      have hc_can : getCanonicalRep n r.2 = getCanonicalRep n (getCanonicalRep n r.2) :=
        (getCanonicalRep_idem n r.2 hr2).symm
      have hc_len : compute_length n (getCanonicalRep n r.2) = r.1 := by
        rw [compute_length_getCanonicalRep n r.2 hn8, a2]
      have h1 : r.1 ≤ r'.1 := by
        rw [← hc_len]
        exact b1 _ (by omega) hc_can
      have h2 : r'.1 ≤ r.1 := by
        rw [← c3]
        exact a3 _ c1
      have h3 : r.2 ≤ r'.2 := a4 r'.2 c1 (by omega)
      have h4 : r'.2 ≤ r.2 := by
        by_contra hlt
        have := c5 (getCanonicalRep n r.2) (by omega) hc_can
        omega
      exact Prod.ext (by omega) (by omega)

/-- C7. For a grid size `n` in 1..8 and a scan of the states `0 .. T-1` with
`T ≤ 2^(n*n)` (the total state count of `main` is such a `T`), the search of
`simple.c`, which skips every state that is not its own canonical
representative, returns the same `(maxLength, bestState)` as the scan that
scores every state with the same strict `>`; `maxLength` is an upper bound of
`compute_length` over all the states of the range, and it is attained at
`bestState`, a state of the range, when the range is not empty (and both are 0
when it is empty). -/
theorem C7_pruned_search_equals_unpruned (n : Nat) (_hn1 : 1 ≤ n) (hn8 : n ≤ 8) (T : Nat)
    (hT : T ≤ 2 ^ (n * n)) :
    totalStates n ≤ 2 ^ (n * n) ∧
    simpleSearch n T = scanAll n T ∧
    (∀ s, s < T → compute_length n s ≤ (simpleSearch n T).1) ∧
    ((T = 0 ∧ simpleSearch n T = (0, 0)) ∨
      ((simpleSearch n T).2 < T ∧
        compute_length n (simpleSearch n T).2 = (simpleSearch n T).1)) := by
  have heq := simpleSearch_eq_scanAll n T hn8 hT
  refine ⟨totalStates_le n, heq, ?_, ?_⟩
  · rw [heq, scanAll_eq]
    intro s hs
    exact (scanKeep_true_spec (compute_length n) (compute_length_pos n) T (by omega)).2.2.1 s hs
  · rcases Nat.eq_zero_or_pos T with h0 | hpos
    · left
      subst h0
      exact ⟨rfl, by rw [simpleSearch_eq, scanKeep_zero]⟩
    · right
      rw [heq, scanAll_eq]
      obtain ⟨a1, a2, _, _⟩ :=
        scanKeep_true_spec (compute_length n) (compute_length_pos n) T hpos
      exact ⟨a1, a2⟩

/-- C7 at `n = 2` and the full range of 16 states. -/
theorem C7_pruned_search_equals_unpruned_witness :
    totalStates 2 ≤ 2 ^ (2 * 2) ∧
    simpleSearch 2 16 = scanAll 2 16 ∧
    (∀ s, s < 16 → compute_length 2 s ≤ (simpleSearch 2 16).1) ∧
    ((16 = 0 ∧ simpleSearch 2 16 = (0, 0)) ∨
      ((simpleSearch 2 16).2 < 16 ∧
        compute_length 2 (simpleSearch 2 16).2 = (simpleSearch 2 16).1)) :=
  C7_pruned_search_equals_unpruned 2 (by decide) (by decide) 16 (by decide)

/-! ## Merging the results of the workers -/

theorem offer_assoc (a b c : Nat × Nat) : offer (offer a b) c = offer a (offer b c) := by
  unfold offer
  split_ifs <;> first | rfl | omega

theorem offer_zero (a : Nat × Nat) : offer a (0, 0) = a := by
  unfold offer
  simp

theorem offer_absorb (a x : Nat × Nat) : offer a (offer (0, 0) x) = offer a x := by
  unfold offer
  split_ifs <;> first | rfl | (simp only at *; omega)

theorem foldl_offer (xs : List (Nat × Nat)) (a : Nat × Nat) :
    xs.foldl offer a = offer a (xs.foldl offer (0, 0)) := by
  induction xs generalizing a with
  | nil => exact (offer_zero a).symm
  | cons x xs ih =>
    simp only [List.foldl_cons]
    rw [ih (offer a x), ih (offer (0, 0) x), offer_assoc, offer_assoc, offer_absorb]

theorem foldl_offer_flatten (ls : List (List (Nat × Nat))) (a : Nat × Nat) :
    (ls.map (fun l => l.foldl offer (0, 0))).foldl offer a = ls.flatten.foldl offer a := by
  induction ls generalizing a with
  | nil => rfl
  | cons l ls ih =>
    simp only [List.map_cons, List.foldl_cons, List.flatten_cons, List.foldl_append]
    rw [← foldl_offer l a, ih]

theorem workerThreadFunc_eq (n : Nat) (task : Nat × Nat) :
    workerThreadFunc n task
      = ((List.range' task.1 (task.2 - task.1)).map
          (fun s => (compute_length n s, s))).foldl offer (0, 0) := by
  unfold workerThreadFunc
  rw [List.foldl_map]
  rfl

theorem scanAll_eq_foldl (n T : Nat) :
    scanAll n T
      = ((List.range' 0 T).map (fun s => (compute_length n s, s))).foldl offer (0, 0) := by
  unfold scanAll forRange
  rw [List.foldl_map, List.range_eq_range']
  rfl

theorem partitionLoop_flatten (c k start r : Nat) :
    ((partitionLoop c k start r).map (fun p => List.range' p.1 (p.2 - p.1))).flatten
      = List.range' start (k * c + min k r) := by
  induction k generalizing start r with
  | zero => simp [partitionLoop]
  | succ k ih =>
    unfold partitionLoop
    by_cases hr : r > 0
    · simp only [hr, if_true, List.map_cons, List.flatten_cons]
      rw [ih]
      have e1 : start + c + 1 - start = c + 1 := by omega
      have e2 : start + c + 1 = start + 1 * (c + 1) := by omega
      rw [e1, e2, List.range'_append]
      congr 1
      rw [Nat.add_mul]
      omega
    · simp only [hr, if_false, List.map_cons, List.flatten_cons]
      rw [ih]
      have hr0 : r = 0 := by omega
      subst hr0
      have e1 : start + c - start = c := by omega
      have e2 : start + c = start + 1 * c := by omega
      rw [e1, e2, List.range'_append]
      congr 1
      rw [Nat.add_mul]
      simp

theorem partition_flatten (T t : Nat) (ht : 1 ≤ t) :
    ((partition T t).map (fun p => List.range' p.1 (p.2 - p.1))).flatten = List.range' 0 T := by
  unfold partition
  simp only []
  rw [partitionLoop_flatten, partition_bound_last T t ht]

/-- The partitioned search finds what one scan of the whole range finds. -/
theorem partitionedSearch_eq_scanAll (n T t : Nat) (ht : 1 ≤ t) :
    partitionedSearch n T t = scanAll n T := by
  have h1 : partitionedSearch n T t
      = ((partition T t).map (workerThreadFunc n)).foldl offer (0, 0) := rfl
  have h2 : (partition T t).map (workerThreadFunc n)
      = ((partition T t).map (fun p => (List.range' p.1 (p.2 - p.1)).map
          (fun s => (compute_length n s, s)))).map (fun l => l.foldl offer (0, 0)) := by
    rw [List.map_map]
    apply List.map_congr_left
    intro p _
    exact workerThreadFunc_eq n p
  rw [h1, h2, foldl_offer_flatten, scanAll_eq_foldl, ← partition_flatten T t ht, List.map_flatten,
    List.map_map]
  rfl

/-- C8. For a grid size `n` in 1..8, a range of `T` states and thread counts
`t, t' ≥ 1`: the partitioned search (ranges of `partition`, one worker per
range with a strict `>`, results merged in the order of the ranges with a
strict `>`) returns the same `(globalMaxLength, globalBestState)` for `t` and
for `t'`; when the range is not empty this is the maximum of `compute_length`
over the whole range together with the numerically lowest state that attains
it (and `(0, 0)` when the range is empty). -/
theorem C8_partitioned_search_thread_independent (n : Nat) (_hn1 : 1 ≤ n) (_hn8 : n ≤ 8)
    (T t t' : Nat) (ht : 1 ≤ t) (ht' : 1 ≤ t') :
    partitionedSearch n T t = partitionedSearch n T t' ∧
    ((T = 0 ∧ partitionedSearch n T t = (0, 0)) ∨
      ((partitionedSearch n T t).2 < T ∧
        compute_length n (partitionedSearch n T t).2 = (partitionedSearch n T t).1 ∧
        (∀ s, s < T → compute_length n s ≤ (partitionedSearch n T t).1) ∧
        (∀ s, s < T → compute_length n s = (partitionedSearch n T t).1 →
          (partitionedSearch n T t).2 ≤ s))) := by
  rw [partitionedSearch_eq_scanAll n T t ht, partitionedSearch_eq_scanAll n T t' ht']
  refine ⟨rfl, ?_⟩
  rw [scanAll_eq]
  rcases Nat.eq_zero_or_pos T with h0 | hpos
  · left
    subst h0
    exact ⟨rfl, scanKeep_zero _ _⟩
  · right
    exact scanKeep_true_spec (compute_length n) (compute_length_pos n) T hpos

/-- C8 at `n = 2` with the 16 states split among 4 and among 3 threads. -/
theorem C8_partitioned_search_thread_independent_witness :
    partitionedSearch 2 16 4 = partitionedSearch 2 16 3 ∧
    ((16 = 0 ∧ partitionedSearch 2 16 4 = (0, 0)) ∨
      ((partitionedSearch 2 16 4).2 < 16 ∧
        compute_length 2 (partitionedSearch 2 16 4).2 = (partitionedSearch 2 16 4).1 ∧
        (∀ s, s < 16 → compute_length 2 s ≤ (partitionedSearch 2 16 4).1) ∧
        (∀ s, s < 16 → compute_length 2 s = (partitionedSearch 2 16 4).1 →
          (partitionedSearch 2 16 4).2 ≤ s))) :=
  C8_partitioned_search_thread_independent 2 (by decide) (by decide) 16 4 3
    (by decide) (by decide)

/-! ## The total state count -/

/-- C10 fails at `n = 8`, whatever value the undefined shift `1ULL << 64`
yields.  No 64-bit total state count `T` equals `2^(8*8)`, and the loop
`for state = 0; state < T` leaves a state of the grid unvisited (the state `T`
itself is below `2^(8*8)` and not in the range); the count of the embedding is
such a 64-bit value.  For `n` in 1..7 the count is exactly `2^(n*n)`. -/
theorem C10_totalStates_cannot_count_grid_8 :
    (∀ T, T < 2 ^ 64 → T ≠ 2 ^ (8 * 8) ∧ ∃ s, s < 2 ^ (8 * 8) ∧ s ∉ List.range T) ∧
    totalStates 8 < 2 ^ 64 ∧ totalStates 8 ≠ 2 ^ (8 * 8) ∧
    (∃ s, s < 2 ^ (8 * 8) ∧ s ∉ List.range (totalStates 8)) ∧
    ((List.range' 1 7).all (fun n => totalStates n == 2 ^ (n * n))) = true := by
  have h64 : (2 : Nat) ^ (8 * 8) = 2 ^ 64 := rfl
  have hgen : ∀ T, T < 2 ^ 64 →
      T ≠ 2 ^ (8 * 8) ∧ ∃ s, s < 2 ^ (8 * 8) ∧ s ∉ List.range T := by
    intro T hT
    refine ⟨?_, T, ?_, ?_⟩
    · rw [h64]
      exact Nat.ne_of_lt hT
    · rw [h64]
      exact hT
    · rw [List.mem_range]
      exact Nat.lt_irrefl T
  have h8 := totalStates_lt 8
  exact ⟨hgen, h8, (hgen _ h8).1, (hgen _ h8).2, by decide⟩

/-! ## Further claims on the step -/

/-- C12. For a grid size `n` in 1..8 and any state `s`, `iteration_step` never
clears a bit: every bit set in `s` is set in the new state, that is
`new & s = s`. -/
theorem C12_iteration_step_monotone (n : Nat) (_hn1 : 1 ≤ n) (_hn8 : n ≤ 8) (s : Nat) :
    (iteration_step n s).1 &&& s = s ∧
      ∀ j, s.testBit j = true → (iteration_step n s).1.testBit j = true := by
  constructor
  · apply Nat.eq_of_testBit_eq
    intro j
    rw [Nat.testBit_and, iteration_step_testBit]
    cases h : s.testBit j <;> simp
  · intro j hj
    exact stepState_mono n s j hj

/-- C12 at `n = 2` and the state 9. -/
theorem C12_iteration_step_monotone_witness :
    (iteration_step 2 9).1 &&& 9 = 9 ∧
      ∀ j, Nat.testBit 9 j = true → (iteration_step 2 9).1.testBit j = true :=
  C12_iteration_step_monotone 2 (by decide) (by decide) 9

/-- C13. For a grid size `n` in 1..8 and any state `s`, the value returned by
`iteration_step` is 0 or 1, and it is 1 exactly when some cell of the grid was
newly filled (clear in `s`, set in the new state), which is exactly when the
new state differs from `s`. -/
theorem C13_iteration_step_changed_flag (n : Nat) (_hn1 : 1 ≤ n) (_hn8 : n ≤ 8) (s : Nat) :
    ((iteration_step n s).2 = 0 ∨ (iteration_step n s).2 = 1) ∧
    ((iteration_step n s).2 = 1 ↔
      ∃ c, c < n * n ∧ s.testBit c = false ∧ (iteration_step n s).1.testBit c = true) ∧
    ((iteration_step n s).2 = 1 ↔ (iteration_step n s).1 ≠ s) := by
  have h01 : (iteration_step n s).2 = 0 ∨ (iteration_step n s).2 = 1 := by
    rw [iteration_step_changed]
    split_ifs
    · exact Or.inr rfl
    · exact Or.inl rfl
  have h1 : (iteration_step n s).2 = 1 ↔ (iteration_step n s).2 ≠ 0 := by
    rcases h01 with h | h <;> rw [h] <;> simp
  refine ⟨h01, ?_, ?_⟩
  · rw [h1, changed_iff_fills]
    constructor
    · rintro ⟨c, hc, hf⟩
      refine ⟨c, hc, hf.1, ?_⟩
      rw [iteration_step_testBit]
      simp [hc, hf]
    · rintro ⟨c, hc, h0, hnew⟩
      refine ⟨c, hc, ?_⟩
      rw [iteration_step_testBit, h0] at hnew
      have : c < n * n ∧ fills n s c := by simpa using hnew
      exact this.2
  · rw [h1]
    exact changed_iff_ne n s

/-- C13 at `n = 2` and the state 9, where the step fills the cells 1 and 2. -/
theorem C13_iteration_step_changed_flag_witness :
    ((iteration_step 2 9).2 = 0 ∨ (iteration_step 2 9).2 = 1) ∧
    ((iteration_step 2 9).2 = 1 ↔
      ∃ c, c < 2 * 2 ∧ Nat.testBit 9 c = false ∧ (iteration_step 2 9).1.testBit c = true) ∧
    ((iteration_step 2 9).2 = 1 ↔ (iteration_step 2 9).1 ≠ 9) :=
  C13_iteration_step_changed_flag 2 (by decide) (by decide) 9

/-- C14. For a grid size `n` in 1..8 and any state `s`: if `iteration_step` on
`s` reports no change, the state is left equal to `s`, and a second call on the
result reports no change either and leaves it equal to `s`. -/
theorem C14_stable_stays_stable (n : Nat) (_hn1 : 1 ≤ n) (_hn8 : n ≤ 8) (s : Nat)
    (h : (iteration_step n s).2 = 0) :
    (iteration_step n s).1 = s ∧
      (iteration_step n (iteration_step n s).1).2 = 0 ∧
      (iteration_step n (iteration_step n s).1).1 = s := by
  have hs : (iteration_step n s).1 = s := by
    by_contra hne
    exact (changed_iff_ne n s).2 hne h
  rw [hs]
  exact ⟨rfl, h, hs⟩

/-- C14 at `n = 2` and the full grid, the state 15. -/
theorem C14_stable_stays_stable_witness :
    (iteration_step 2 15).1 = 15 ∧
      (iteration_step 2 (iteration_step 2 15).1).2 = 0 ∧
      (iteration_step 2 (iteration_step 2 15).1).1 = 15 :=
  C14_stable_stays_stable 2 (by decide) (by decide) 15 (by decide)

/-! ## The grids of size 2 and 1 -/

/-- C15. For `n = 2`: each of the four cells has exactly two neighbours in
`neighborMask`; from the state 9 (cells 0 and 3, the diagonal) the first step
fills both remaining cells and `compute_length` is 2; and no state of the 16
has a length above 2. -/
theorem C15_grid_two :
    (∀ c, c < 4 → popcount64 (neighborMask 2 c) = 2) ∧
    (iteration_step 2 9).1 = 15 ∧
    (iteration_step 2 9).2 = 1 ∧
    compute_length 2 9 = 2 ∧
    (∀ s, s < 16 → compute_length 2 s ≤ 2) := by
  refine ⟨by decide, by decide, by decide, by decide, by decide⟩

/-- C16. For `n = 1`: the total state count is 2, the single cell has an empty
neighbour mask, `compute_length` is 1 on both states, and both exhaustive
searches over the two states report the maximum length 1. -/
theorem C16_grid_one :
    totalStates 1 = 2 ∧
    neighborMask 1 0 = 0 ∧
    compute_length 1 0 = 1 ∧ compute_length 1 1 = 1 ∧
    (simpleSearch 1 (totalStates 1)).1 = 1 ∧
    (partitionedSearch 1 (totalStates 1) 4).1 = 1 ∧
    (∀ s, s < 2 → compute_length 1 s ≤ 1) := by
  refine ⟨by decide, by decide, by decide, by decide, by decide, by decide, by decide⟩

/-! ## The stabilisation length under the symmetries -/

/-- C18. For a grid size `n` in 1..8, every state `s` (in particular every
`s < 2^(n*n)`) and each of the eight transforms `T` of `simple.c` (the
identity, the three rotations and the four reflections), the stabilisation
length is invariant: `compute_length (T s) = compute_length s`. -/
theorem C18_compute_length_symmetric (n : Nat) (_hn1 : 1 ≤ n) (hn8 : n ≤ 8) (s : Nat) :
    ∀ T ∈ ([fun x => x, rotate90 n, rotate180 n, rotate270 n, reflectHorizontal n,
        reflectVertical n, reflectMainDiag n, reflectAntiDiag n] : List (Nat → Nat)),
      compute_length n (T s) = compute_length n s := by
  intro T hT
  simp only [List.mem_cons, List.mem_singleton, List.not_mem_nil, or_false] at hT
  rcases hT with rfl | rfl | rfl | rfl | rfl | rfl | rfl | rfl
  · rfl
  · rw [rotate90_eq]; exact compute_length_applySym _ n s hn8
  · rw [rotate180_eq]; exact compute_length_applySym _ n s hn8
  · rw [rotate270_eq]; exact compute_length_applySym _ n s hn8
  · rw [reflectHorizontal_eq]; exact compute_length_applySym _ n s hn8
  · rw [reflectVertical_eq]; exact compute_length_applySym _ n s hn8
  · rw [reflectMainDiag_eq]; exact compute_length_applySym _ n s hn8
  · rw [reflectAntiDiag_eq]; exact compute_length_applySym _ n s hn8

/-- C18 at `n = 3`, the state 98 and the reflection along the main diagonal. -/
theorem C18_compute_length_symmetric_witness :
    compute_length 3 (reflectMainDiag 3 98) = compute_length 3 98 :=
  C18_compute_length_symmetric 3 (by decide) (by decide) 98 (reflectMainDiag 3)
    (List.Mem.tail _ (List.Mem.tail _ (List.Mem.tail _ (List.Mem.tail _
      (List.Mem.tail _ (List.Mem.tail _ (List.Mem.head _)))))))

/-! ## Equivalence classes of states for `n = 3` -/

theorem mem_symClass (n s t : Nat) :
    t ∈ symClass n s ↔ t < 2 ^ (n * n) ∧ t ∈ images n s := by
  simp [symClass]

theorem self_mem_symClass (n s : Nat) (hs : s < 2 ^ (n * n)) : s ∈ symClass n s := by
  rw [mem_symClass]
  exact ⟨hs, by simp [images]⟩

theorem symClass_eq_of_mem (n s t : Nat) (hs : s < 2 ^ (n * n)) (ht : t ∈ symClass n s) :
    symClass n t = symClass n s := by
  rw [mem_symClass] at ht
  obtain ⟨g, rfl⟩ := (mem_images_iff n s t hs).1 ht.2
  ext u
  rw [mem_symClass, mem_symClass, images_applySym g n s u hs]

theorem getCanonicalRep_lt (n s : Nat) (hs : s < 2 ^ (n * n)) :
    getCanonicalRep n s < 2 ^ (n * n) :=
  lt_of_le_of_lt (getCanonicalRep_le_self n s) hs

theorem symClass_getCanonicalRep (n s : Nat) (hs : s < 2 ^ (n * n)) :
    symClass n (getCanonicalRep n s) = symClass n s :=
  symClass_eq_of_mem n s _ hs
    ((mem_symClass n s _).2 ⟨getCanonicalRep_lt n s hs, getCanonicalRep_mem n s⟩)

theorem getCanonicalRep_eq_of_mem_symClass (n s t : Nat) (hs : s < 2 ^ (n * n))
    (ht : t ∈ symClass n s) : getCanonicalRep n t = getCanonicalRep n s := by
  rw [mem_symClass] at ht
  obtain ⟨g, rfl⟩ := (mem_images_iff n s t hs).1 ht.2
  exact getCanonicalRep_applySym g n s hs

/-- The canonical states are as many as the equivalence classes. -/
theorem card_canonical_eq_card_classes (n : Nat) :
    ((Finset.range (2 ^ (n * n))).filter (fun s => getCanonicalRep n s = s)).card
      = ((Finset.range (2 ^ (n * n))).image (symClass n)).card := by
  have himg : (Finset.range (2 ^ (n * n))).image (symClass n)
      = ((Finset.range (2 ^ (n * n))).filter (fun s => getCanonicalRep n s = s)).image
          (symClass n) := by
    ext C
    simp only [Finset.mem_image, Finset.mem_filter, Finset.mem_range]
    constructor
    · rintro ⟨s, hs, rfl⟩
      exact ⟨getCanonicalRep n s, ⟨getCanonicalRep_lt n s hs, getCanonicalRep_idem n s hs⟩,
        symClass_getCanonicalRep n s hs⟩
    · rintro ⟨s, ⟨hs, _⟩, rfl⟩
      exact ⟨s, hs, rfl⟩
  rw [himg, Finset.card_image_of_injOn]
  intro c hc c' hc' heq
  simp only [Finset.coe_filter, Finset.mem_range, Set.mem_setOf_eq] at hc hc'
  have hmem : c ∈ symClass n c' := by
    rw [← heq]
    exact self_mem_symClass n c hc.1
  have := getCanonicalRep_eq_of_mem_symClass n c' c hc'.1 hmem
  rw [hc.2, hc'.2] at this
  exact this

set_option maxRecDepth 100000 in
theorem card_canonical_three :
    ((Finset.range 512).filter (fun s => getCanonicalRep 3 s = s)).card = 102 := by
  decide

/-- C17. For `n = 3`: the number of states `s < 512` with
`getCanonicalRep s = s` is strictly less than 512 (it is 102) and equals the
number of distinct equivalence classes of the states below 512, the class of
`s` being the set of the states that are one of the eight images of `s`; these
classes contain their state and two states of one class have the same class. -/
theorem C17_canonical_states_count_classes :
    ((Finset.range 512).filter (fun s => getCanonicalRep 3 s = s)).card < 512 ∧
    ((Finset.range 512).filter (fun s => getCanonicalRep 3 s = s)).card
      = ((Finset.range 512).image (symClass 3)).card ∧
    ((Finset.range 512).filter (fun s => getCanonicalRep 3 s = s)).card = 102 ∧
    (∀ s t, t ∈ symClass 3 s ↔
      (t < 512 ∧ t ∈ [s, rotate90 3 s, rotate180 3 s, rotate270 3 s, reflectHorizontal 3 s,
        reflectVertical 3 s, reflectMainDiag 3 s, reflectAntiDiag 3 s])) ∧
    (∀ s, s < 512 → s ∈ symClass 3 s) ∧
    (∀ s t, s < 512 → t ∈ symClass 3 s → symClass 3 t = symClass 3 s) := by
  have h512 : 2 ^ (3 * 3) = 512 := by norm_num
  have hcard := card_canonical_eq_card_classes 3
  rw [h512] at hcard
  refine ⟨?_, hcard, card_canonical_three, ?_, ?_, ?_⟩
  · rw [card_canonical_three]; decide
  · intro s t
    rw [mem_symClass, h512]
    rfl
  · intro s hs
    exact self_mem_symClass 3 s (by rw [h512]; exact hs)
  · intro s t hs ht
    exact symClass_eq_of_mem 3 s t (by rw [h512]; exact hs) ht

/-! ## The bounded recursive search -/

theorem recurse_zero (n state : Nat) (i : Int) :
    recurse n state i 0 = (compute_length n state, state, [state]) := by
  rw [recurse]

theorem recurse_succ (n state : Nat) (i : Int) (depth : Nat) :
    recurse n state i (depth + 1)
      = (loopRange n i).foldl (recurseStep n depth) (compute_length n state, state, [state]) := by
  rw [recurse]
  rfl

theorem visits_zero (n state : Nat) (i : Int) : visits n state i 0 = [state] := by
  rw [visits]

theorem visits_succ (n state : Nat) (i : Int) (depth : Nat) :
    visits n state i (depth + 1)
      = state :: (loopRange n i).flatMap
          (fun j => visits n (fillCell state j) (j : Int) depth) := by
  rw [visits]

theorem mem_loopRange (n : Nat) (i : Int) (j : Nat) :
    j ∈ loopRange n i ↔ (i < (j : Int) ∧ j < n * n) := by
  unfold loopRange
  rw [List.mem_range'_1]
  omega

theorem testBit_unfillCell (s j k : Nat) :
    (unfillCell s j).testBit k = (s.testBit k && (decide (k < 64) != decide (j = k))) := by
  unfold unfillCell
  rw [Nat.testBit_and, Nat.testBit_xor, Nat.one_shiftLeft, Nat.testBit_two_pow,
    Nat.testBit_two_pow_sub_one]

theorem unfillCell_fillCell (s j : Nat) (hs : s < 2 ^ 64) (hj : j < 64)
    (hbit : s.testBit j = false) : unfillCell (fillCell s j) j = s := by
  apply Nat.eq_of_testBit_eq
  intro k
  rw [testBit_unfillCell, testBit_fillCell]
  by_cases hjk : j = k
  · subst hjk
    simp [hbit, hj]
  · by_cases hk : k < 64
    · simp [hjk, hk]
    · have : s.testBit k = false :=
        Nat.testBit_lt_two_pow (lt_of_lt_of_le hs (Nat.pow_le_pow_right (by decide) (by omega)))
      simp [this, hjk]

theorem fillCell_lt (s j : Nat) (hs : s < 2 ^ 64) (hj : j < 64) : fillCell s j < 2 ^ 64 := by
  unfold fillCell
  rw [Nat.one_shiftLeft]
  exact Nat.or_lt_two_pow hs (Nat.pow_lt_pow_right (by decide) hj)

theorem tailClear_fillCell (n : Nat) (hn8 : n ≤ 8) (i : Int) (state j : Nat)
    (h : TailClear n i state) (hj : j ∈ loopRange n i) :
    TailClear n (j : Int) (fillCell state j) := by
  rw [mem_loopRange] at hj
  have h64 := grid_le_64 n hn8
  refine ⟨fillCell_lt state j h.1 (by omega), ?_⟩
  intro k hk hkn
  rw [testBit_fillCell, h.2 k (by omega) hkn]
  have : j ≠ k := by omega
  simp [this]

theorem nodeSpec_step (n d : Nat) (hn8 : n ≤ 8) (i : Int) (state : Nat)
    (hst : TailClear n i state) (acc : Nat × Nat × List Nat) (j : Nat)
    (hj : j ∈ loopRange n i) (hacc : NodeSpec n acc state acc.2.2)
    (hrec : NodeSpec n (recurse n (fillCell state j) (j : Int) d) (fillCell state j)
      (visits n (fillCell state j) (j : Int) d)) :
    NodeSpec n (recurseStep n d acc j) state
      (acc.2.2 ++ visits n (fillCell state j) (j : Int) d) := by
  obtain ⟨a1, _, a3, s0, hs0, a4⟩ := hacc
  have hj' := (mem_loopRange n i j).1 hj
  have h64 := grid_le_64 n hn8
  have hstep : recurseStep n d acc j
      = ((if (recurse n (fillCell state j) (j : Int) d).1 > acc.1
            then (recurse n (fillCell state j) (j : Int) d).1 else acc.1),
          unfillCell (recurse n (fillCell state j) (j : Int) d).2.1 j,
          acc.2.2 ++ (recurse n (fillCell state j) (j : Int) d).2.2) := by
    unfold recurseStep
    rw [a1]
  obtain ⟨r1, r2, r3, t0, ht0, r4⟩ := hrec
  rw [hstep, r1, r2]
  refine ⟨?_, rfl, ?_, ?_⟩
  · exact unfillCell_fillCell state j hst.1 (by omega) (hst.2 j hj'.1 hj'.2)
  · intro s hs
    simp only
    rcases List.mem_append.1 hs with h | h
    · have := a3 s h
      split_ifs <;> omega
    · have := r3 s h
      split_ifs <;> omega
  · simp only
    by_cases hgt : (recurse n (fillCell state j) (j : Int) d).1 > acc.1
    · rw [if_pos hgt]
      exact ⟨t0, List.mem_append.2 (Or.inr ht0), r4⟩
    · rw [if_neg hgt]
      exact ⟨s0, List.mem_append.2 (Or.inl hs0), a4⟩

theorem nodeSpec_loop (n d : Nat) (hn8 : n ≤ 8) (i : Int) (state : Nat)
    (hst : TailClear n i state)
    (hrec : ∀ j, j ∈ loopRange n i →
      NodeSpec n (recurse n (fillCell state j) (j : Int) d) (fillCell state j)
        (visits n (fillCell state j) (j : Int) d))
    (js : List Nat) (hjs : ∀ j ∈ js, j ∈ loopRange n i) :
    ∀ acc : Nat × Nat × List Nat, NodeSpec n acc state acc.2.2 →
      NodeSpec n (js.foldl (recurseStep n d) acc) state
        (acc.2.2 ++ js.flatMap (fun j => visits n (fillCell state j) (j : Int) d)) := by
  induction js with
  | nil =>
    intro acc hacc
    simpa using hacc
  | cons j js ih =>
    intro acc hacc
    have hj : j ∈ loopRange n i := hjs j (List.mem_cons_self _ _)
    have h1 := nodeSpec_step n d hn8 i state hst acc j hj hacc (hrec j hj)
    have h2 : (recurseStep n d acc j).2.2
        = acc.2.2 ++ visits n (fillCell state j) (j : Int) d := h1.2.1
    have h3 := ih (fun j' hj' => hjs j' (List.mem_cons_of_mem _ hj')) (recurseStep n d acc j)
      (by rw [h2]; exact h1)
    rw [h2, List.append_assoc] at h3
    simpa [List.flatMap_cons] using h3

/-- What a call of `recurse` does, from a state with no cell after `i` filled. -/
theorem recurse_nodeSpec (n : Nat) (hn8 : n ≤ 8) :
    ∀ (d : Nat) (state : Nat) (i : Int), TailClear n i state →
      NodeSpec n (recurse n state i d) state (visits n state i d) := by
  intro d
  induction d with
  | zero =>
    intro state i _
    rw [recurse_zero, visits_zero]
    exact ⟨rfl, rfl, by simp, state, by simp, rfl⟩
  | succ d ih =>
    intro state i hst
    rw [recurse_succ, visits_succ]
    have h := nodeSpec_loop n d hn8 i state hst
      (fun j hj => ih (fillCell state j) (j : Int) (tailClear_fillCell n hn8 i state j hst hj))
      (loopRange n i) (fun j hj => hj) (compute_length n state, state, [state])
      ⟨rfl, rfl, by simp, state, by simp, rfl⟩
    simpa using h

/-! ## The states of the recursion tree -/

theorem filledCount_eq_zero (n m : Nat) (hbits : ∀ k, m.testBit k = true → k < n * n)
    (h : filledCount n m = 0) : m = 0 := by
  unfold filledCount at h
  rw [Finset.card_eq_zero, Finset.filter_eq_empty_iff] at h
  apply Nat.eq_of_testBit_eq
  intro k
  rw [Nat.zero_testBit]
  by_contra hk
  have hk' : m.testBit k = true := by simpa using hk
  exact h (Finset.mem_range.2 (hbits k hk')) hk'

theorem filledCount_fillCell (n m j : Nat) (hj : j < n * n) (hbit : m.testBit j = false) :
    filledCount n (fillCell m j) = filledCount n m + 1 := by
  unfold filledCount
  have : (Finset.range (n * n)).filter (fun k => (fillCell m j).testBit k = true)
      = insert j ((Finset.range (n * n)).filter (fun k => m.testBit k = true)) := by
    ext k
    simp only [Finset.mem_filter, Finset.mem_range, Finset.mem_insert, testBit_fillCell,
      Bool.or_eq_true, decide_eq_true_eq]
    constructor
    · rintro ⟨hk, h | h⟩
      · exact Or.inr ⟨hk, h⟩
      · exact Or.inl h.symm
    · rintro (h | ⟨hk, h⟩)
      · subst h
        exact ⟨hj, Or.inr rfl⟩
      · exact ⟨hk, Or.inl h⟩
  rw [this, Finset.card_insert_of_not_mem]
  simp [hbit]

theorem fillCell_or (state m j : Nat) :
    fillCell state j ||| m = state ||| fillCell m j := by
  apply Nat.eq_of_testBit_eq
  intro k
  simp only [Nat.testBit_or, testBit_fillCell]
  cases state.testBit k <;> cases m.testBit k <;> cases decide (j = k) <;> rfl

theorem maskOK_zero (n : Nat) (i : Int) (d : Nat) : MaskOK n i d 0 := by
  refine ⟨?_, ?_⟩
  · intro k hk
    rw [Nat.zero_testBit] at hk
    exact Bool.noConfusion hk
  · unfold filledCount
    simp

/-- Adding a cell `j` of `(i, n*n)` below a mask of cells of `(j, n*n)`. -/
theorem maskOK_fillCell (n : Nat) (i : Int) (d m j : Nat) (hj : i < (j : Int) ∧ j < n * n)
    (hm : MaskOK n (j : Int) d m) : MaskOK n i (d + 1) (fillCell m j) := by
  have hbit : m.testBit j = false := by
    by_contra h
    have := (hm.1 j (by simpa using h)).1
    omega
  refine ⟨?_, ?_⟩
  · intro k hk
    rw [testBit_fillCell, Bool.or_eq_true, decide_eq_true_eq] at hk
    rcases hk with hk | hk
    · have := hm.1 k hk
      omega
    · subst hk
      exact hj
  · rw [filledCount_fillCell n m j hj.2 hbit]
    have := hm.2
    omega

/-- A non-empty mask is its lowest cell on top of a mask of higher cells. -/
theorem maskOK_split (n : Nat) (i : Int) (d m : Nat) (hm : MaskOK n i (d + 1) m)
    (hne : m ≠ 0) :
    ∃ (j : Nat) (m' : Nat),
      (i < (j : Int) ∧ j < n * n) ∧ MaskOK n (j : Int) d m' ∧ m = fillCell m' j := by
  have hex : ∃ k, m.testBit k = true := Nat.ne_zero_implies_bit_true hne
  have hj : m.testBit (Nat.find hex) = true := Nat.find_spec hex
  have hmin : ∀ k, k < Nat.find hex → m.testBit k = false := by
    intro k hk
    have := Nat.find_min hex hk
    simpa using this
  generalize Nat.find hex = j at hj hmin
  have hbit' : ∀ k, (m ^^^ 2 ^ j).testBit k = (m.testBit k && !decide (j = k)) := by
    intro k
    rw [Nat.testBit_xor, Nat.testBit_two_pow]
    by_cases hjk : j = k
    · subst hjk; simp [hj]
    · simp [hjk]
  have hmeq : m = fillCell (m ^^^ 2 ^ j) j := by
    apply Nat.eq_of_testBit_eq
    intro k
    rw [testBit_fillCell, hbit']
    by_cases hjk : j = k
    · subst hjk; simp [hj]
    · simp [hjk]
  have hclear : (m ^^^ 2 ^ j).testBit j = false := by
    rw [hbit']; simp
  refine ⟨j, m ^^^ 2 ^ j, hm.1 j hj, ⟨?_, ?_⟩, hmeq⟩
  · intro k hk
    rw [hbit', Bool.and_eq_true] at hk
    have hjk : j ≠ k := by simpa using hk.2
    have h1 := hm.1 k hk.1
    refine ⟨?_, h1.2⟩
    rcases Nat.lt_or_ge k j with h | h
    · rw [hmin k h] at hk
      exact absurd hk.1 (by simp)
    · omega
  · have h1 := filledCount_fillCell n (m ^^^ 2 ^ j) j (hm.1 j hj).2 hclear
    rw [← hmeq] at h1
    have := hm.2
    omega

/-- The states of the recursion tree: the state with a set of at most `d` cells
of `(i, n*n)` added. -/
theorem mem_visits (n : Nat) :
    ∀ (d : Nat) (state : Nat) (i : Int) (s : Nat),
      s ∈ visits n state i d ↔ ∃ m, MaskOK n i d m ∧ s = state ||| m := by
  intro d
  induction d with
  | zero =>
    intro state i s
    rw [visits_zero, List.mem_singleton]
    constructor
    · rintro rfl
      exact ⟨0, maskOK_zero n i 0, by simp⟩
    · rintro ⟨m, hm, rfl⟩
      have : m = 0 := filledCount_eq_zero n m (fun k hk => (hm.1 k hk).2) (by
        have := hm.2
        omega)
      rw [this]; simp
  | succ d ih =>
    intro state i s
    rw [visits_succ, List.mem_cons, List.mem_flatMap]
    constructor
    · rintro (rfl | ⟨j, hj, hs⟩)
      · exact ⟨0, maskOK_zero n i _, by simp⟩
      · obtain ⟨m', hm', rfl⟩ := (ih _ _ _).1 hs
        exact ⟨fillCell m' j, maskOK_fillCell n i d m' j ((mem_loopRange n i j).1 hj) hm',
          fillCell_or state m' j⟩
    · rintro ⟨m, hm, rfl⟩
      by_cases hne : m = 0
      · left; rw [hne]; simp
      · right
        obtain ⟨j, m', hj, hm', rfl⟩ := maskOK_split n i d m hm hne
        exact ⟨j, (mem_loopRange n i j).2 hj,
          (ih _ _ _).2 ⟨m', hm', (fillCell_or state m' j).symm⟩⟩

theorem visits_child_testBit (n d state j s : Nat)
    (hs : s ∈ visits n (fillCell state j) (j : Int) d) : s.testBit j = true := by
  obtain ⟨m, _, rfl⟩ := (mem_visits n d _ _ s).1 hs
  rw [Nat.testBit_or, testBit_fillCell]
  simp

theorem visits_child_testBit_below (n d state j j' s : Nat) (hjj : j < j')
    (hbit : state.testBit j = false)
    (hs : s ∈ visits n (fillCell state j') (j' : Int) d) : s.testBit j = false := by
  obtain ⟨m, hm, rfl⟩ := (mem_visits n d _ _ s).1 hs
  rw [Nat.testBit_or, testBit_fillCell, hbit]
  have h1 : j' ≠ j := by omega
  have h2 : m.testBit j = false := by
    by_contra h
    have := (hm.1 j (by simpa using h)).1
    omega
  simp [h1, h2]

/-- No state occurs twice in the recursion tree. -/
theorem nodup_visits (n : Nat) :
    ∀ (d : Nat) (state : Nat) (i : Int),
      (∀ k : Nat, i < (k : Int) → k < n * n → state.testBit k = false) →
      (visits n state i d).Nodup := by
  intro d
  induction d with
  | zero =>
    intro state i _
    rw [visits_zero]
    exact List.nodup_singleton _
  | succ d ih =>
    intro state i hclear
    rw [visits_succ, List.nodup_cons]
    constructor
    · intro hmem
      obtain ⟨j, hj, hs⟩ := List.mem_flatMap.1 hmem
      have hj' := (mem_loopRange n i j).1 hj
      have h1 := visits_child_testBit n d state j state hs
      rw [hclear j hj'.1 hj'.2] at h1
      exact Bool.noConfusion h1
    · rw [List.nodup_flatMap]
      constructor
      · intro j hj
        have hj' := (mem_loopRange n i j).1 hj
        apply ih
        intro k hk hkn
        rw [testBit_fillCell, hclear k (by omega) hkn]
        have : j ≠ k := by omega
        simp [this]
      · have hpw : List.Pairwise (fun a b => a < b) (loopRange n i) :=
          List.pairwise_lt_range' _ _
        refine List.Pairwise.imp_of_mem ?_ hpw
        intro j j' hj _ hlt
        have hj' := (mem_loopRange n i j).1 hj
        rw [Function.onFun, List.disjoint_left]
        intro s hs hs'
        have h1 := visits_child_testBit n d state j s hs
        have h2 := visits_child_testBit_below n d state j j' s hlt
          (hclear j hj'.1 hj'.2) hs'
        rw [h1] at h2
        exact Bool.noConfusion h2

/-! ## Claims on the recursive search -/

theorem tailClear_of_bits_le (n : Nat) (hn8 : n ≤ 8) (i : Int) (hi2 : i ≤ (n * n : Nat) - 1)
    (state : Nat) (hbits : ∀ k : Nat, state.testBit k = true → (k : Int) ≤ i) :
    TailClear n i state := by
  have h64 := grid_le_64 n hn8
  refine ⟨?_, ?_⟩
  · apply Nat.lt_pow_two_of_testBit
    intro k hk
    by_contra h
    have := hbits k (by simpa using h)
    omega
  · intro k hk _
    by_contra h
    have := hbits k (by simpa using h)
    omega

theorem testBit_lt_of_lt_two_pow (s N k : Nat) (hs : s < 2 ^ N) (hk : s.testBit k = true) :
    k < N := by
  by_contra h
  have := Nat.testBit_lt_two_pow (lt_of_lt_of_le hs (Nat.pow_le_pow_right (by decide)
    (not_lt.1 h)))
  rw [this] at hk
  exact Bool.noConfusion hk

/-- The states of the recursion tree of `main`: the states of the grid with at
most `d` filled cells. -/
theorem mem_visits_root (n d s : Nat) :
    s ∈ visits n 0 (-1) d ↔ (s < 2 ^ (n * n) ∧ filledCount n s ≤ d) := by
  rw [mem_visits]
  constructor
  · rintro ⟨m, hm, rfl⟩
    rw [Nat.zero_or]
    refine ⟨?_, hm.2⟩
    apply Nat.lt_pow_two_of_testBit
    intro k hk
    by_contra h
    have := (hm.1 k (by simpa using h)).2
    omega
  · rintro ⟨hs, hc⟩
    refine ⟨s, ⟨?_, hc⟩, by rw [Nat.zero_or]⟩
    intro k hk
    exact ⟨by omega, testBit_lt_of_lt_two_pow s _ k hs hk⟩

theorem tailClear_root (n : Nat) : TailClear n (-1) 0 :=
  ⟨by decide, fun k _ _ => Nat.zero_testBit k⟩

/-- C20. For a grid size `n` in 1..8, an index `i` in `-1 .. n*n-1`, a depth
`d ≥ 0` and a 64-bit state none of whose cells `i+1 .. n*n-1` is filled, the
state pointed to by the argument of `recurse(&state, i, d)` is, when the call
returns, equal to its value at entry. -/
theorem C20_recurse_restores_state (n : Nat) (_hn1 : 1 ≤ n) (hn8 : n ≤ 8) (i : Int)
    (_hi1 : -1 ≤ i) (_hi2 : i ≤ (n * n : Nat) - 1) (d : Nat) (state : Nat)
    (hst : state < 2 ^ 64)
    (hclear : ∀ k : Nat, i < (k : Int) → k < n * n → state.testBit k = false) :
    (recurse n state i d).2.1 = state :=
  (recurse_nodeSpec n hn8 d state i ⟨hst, hclear⟩).1

/-- C20 at `n = 2`, `i = 0`, depth 2 and the state 1 (only the cell 0 filled). -/
theorem C20_recurse_restores_state_witness : (recurse 2 1 0 2).2.1 = 1 :=
  C20_recurse_restores_state 2 (by decide) (by decide) 0 (by decide) (by decide) 2 1
    (by decide)
    (fun k hk hk4 => by
      have : k = 1 ∨ k = 2 ∨ k = 3 := by omega
      rcases this with rfl | rfl | rfl <;> decide)

/-- C11. For a grid size `n` in 1..8, an index `i` in `-1 .. n*n-1`, a depth `d`
and a state whose set bits all lie at indices `≤ i`: the value returned by
`recurse(&state, i, d)` is the maximum of `compute_length` over the states
obtained from `state` by filling a set `m` of at most `d` cells with indices in
`(i, n*n)` (the empty set gives the state itself): it bounds all of them and is
attained by one of them.  In particular the call `recurse(&state, -1, n+2)` of
`main` on the empty state returns the maximum of `compute_length` over the
states `s < 2^(n*n)` with at most `n+2` filled cells. -/
theorem C11_recurse_returns_maximum (n : Nat) (_hn1 : 1 ≤ n) (hn8 : n ≤ 8) (i : Int)
    (_hi1 : -1 ≤ i) (hi2 : i ≤ (n * n : Nat) - 1) (d : Nat) (state : Nat)
    (hbits : ∀ k : Nat, state.testBit k = true → (k : Int) ≤ i) :
    (∀ m, (∀ k : Nat, m.testBit k = true → i < (k : Int) ∧ k < n * n) →
      ((Finset.range (n * n)).filter (fun k => m.testBit k = true)).card ≤ d →
      compute_length n (state ||| m) ≤ (recurse n state i d).1) ∧
    (∃ m, (∀ k : Nat, m.testBit k = true → i < (k : Int) ∧ k < n * n) ∧
      ((Finset.range (n * n)).filter (fun k => m.testBit k = true)).card ≤ d ∧
      compute_length n (state ||| m) = (recurse n state i d).1) ∧
    (∀ s, s < 2 ^ (n * n) →
      ((Finset.range (n * n)).filter (fun k => s.testBit k = true)).card ≤ n + 2 →
      compute_length n s ≤ (recurse n 0 (-1) (n + 2)).1) ∧
    (∃ s, s < 2 ^ (n * n) ∧
      ((Finset.range (n * n)).filter (fun k => s.testBit k = true)).card ≤ n + 2 ∧
      compute_length n s = (recurse n 0 (-1) (n + 2)).1) := by
  obtain ⟨_, _, a3, t, ht, a4⟩ :=
    recurse_nodeSpec n hn8 d state i (tailClear_of_bits_le n hn8 i hi2 state hbits)
  obtain ⟨_, _, b3, u, hu, b4⟩ := recurse_nodeSpec n hn8 (n + 2) 0 (-1) (tailClear_root n)
  refine ⟨?_, ?_, ?_, ?_⟩
  · intro m hm hc
    exact a3 _ ((mem_visits n d state i _).2 ⟨m, ⟨hm, hc⟩, rfl⟩)
  · obtain ⟨m, hm, rfl⟩ := (mem_visits n d state i t).1 ht
    exact ⟨m, hm.1, hm.2, a4⟩
  · intro s hs hc
    exact b3 s ((mem_visits_root n (n + 2) s).2 ⟨hs, hc⟩)
  · have := (mem_visits_root n (n + 2) u).1 hu
    exact ⟨u, this.1, this.2, b4⟩

/-- C11 at `n = 2`, from the empty state with `i = -1` and depth 1. -/
theorem C11_recurse_returns_maximum_witness :
    (∀ m, (∀ k : Nat, m.testBit k = true → (-1 : Int) < (k : Int) ∧ k < 2 * 2) →
      ((Finset.range (2 * 2)).filter (fun k => m.testBit k = true)).card ≤ 1 →
      compute_length 2 (0 ||| m) ≤ (recurse 2 0 (-1) 1).1) ∧
    (∃ m, (∀ k : Nat, m.testBit k = true → (-1 : Int) < (k : Int) ∧ k < 2 * 2) ∧
      ((Finset.range (2 * 2)).filter (fun k => m.testBit k = true)).card ≤ 1 ∧
      compute_length 2 (0 ||| m) = (recurse 2 0 (-1) 1).1) ∧
    (∀ s, s < 2 ^ (2 * 2) →
      ((Finset.range (2 * 2)).filter (fun k => s.testBit k = true)).card ≤ 2 + 2 →
      compute_length 2 s ≤ (recurse 2 0 (-1) (2 + 2)).1) ∧
    (∃ s, s < 2 ^ (2 * 2) ∧
      ((Finset.range (2 * 2)).filter (fun k => s.testBit k = true)).card ≤ 2 + 2 ∧
      compute_length 2 s = (recurse 2 0 (-1) (2 + 2)).1) :=
  C11_recurse_returns_maximum 2 (by decide) (by decide) (-1) (by decide) (by decide) 1 0
    (fun k hk => by rw [Nat.zero_testBit] at hk; exact Bool.noConfusion hk)

/-- Every set of cells is the set of filled cells of a state. -/
theorem exists_state_of_cells (S : Finset Nat) :
    ∃ s : Nat, ∀ k, s.testBit k = true ↔ k ∈ S := by
  induction S using Finset.induction_on with
  | empty => exact ⟨0, fun k => by simp⟩
  | insert ha ih =>
    rename_i a S
    obtain ⟨s, hs⟩ := ih
    refine ⟨fillCell s a, fun k => ?_⟩
    rw [testBit_fillCell, Bool.or_eq_true, decide_eq_true_eq, hs, Finset.mem_insert]
    constructor
    · rintro (h | h)
      · exact Or.inr h
      · exact Or.inl h.symm
    · rintro (h | h)
      · exact Or.inr h.symm
      · exact Or.inl h

/-- C19. For a grid size `n` in 1..8, in the recursion started by
`recurse(&state, -1, n+2)` on the empty state, `compute_length` is called
exactly once on every state of the grid with at most `n+2` filled cells and
never on another state; in particular, for every set `S` of at most `n+2` cells
of `{0..n*n-1}`, the state whose filled cells are those of `S` is the argument
of exactly one call. -/
theorem C19_recurse_visits_each_set_once (n : Nat) (_hn1 : 1 ≤ n) (hn8 : n ≤ 8) :
    (∀ s, s < 2 ^ (n * n) →
      ((Finset.range (n * n)).filter (fun k => s.testBit k = true)).card ≤ n + 2 →
      (recurse n 0 (-1) (n + 2)).2.2.count s = 1) ∧
    (∀ s, ¬ (s < 2 ^ (n * n) ∧
        ((Finset.range (n * n)).filter (fun k => s.testBit k = true)).card ≤ n + 2) →
      (recurse n 0 (-1) (n + 2)).2.2.count s = 0) ∧
    (∀ S : Finset Nat, S ⊆ Finset.range (n * n) → S.card ≤ n + 2 →
      ∃ s, (∀ k, s.testBit k = true ↔ k ∈ S) ∧ (recurse n 0 (-1) (n + 2)).2.2.count s = 1) := by
  have hlog : (recurse n 0 (-1) (n + 2)).2.2 = visits n 0 (-1) (n + 2) :=
    (recurse_nodeSpec n hn8 (n + 2) 0 (-1) (tailClear_root n)).2.1
  have hnodup : (visits n 0 (-1) (n + 2)).Nodup :=
    nodup_visits n (n + 2) 0 (-1) (fun k _ _ => Nat.zero_testBit k)
  have hone : ∀ s, s < 2 ^ (n * n) → filledCount n s ≤ n + 2 →
      (recurse n 0 (-1) (n + 2)).2.2.count s = 1 := by
    intro s hs hc
    rw [hlog]
    exact List.count_eq_one_of_mem hnodup ((mem_visits_root n (n + 2) s).2 ⟨hs, hc⟩)
  refine ⟨hone, ?_, ?_⟩
  · intro s hs
    rw [hlog, List.count_eq_zero]
    intro hmem
    exact hs ((mem_visits_root n (n + 2) s).1 hmem)
  · intro S hS hcard
    obtain ⟨s, hs⟩ := exists_state_of_cells S
    refine ⟨s, hs, hone s ?_ ?_⟩
    · apply Nat.lt_pow_two_of_testBit
      intro k hk
      by_contra h
      have := Finset.mem_range.1 (hS ((hs k).1 (by simpa using h)))
      omega
    · have : (Finset.range (n * n)).filter (fun k => s.testBit k = true) = S := by
        ext k
        rw [Finset.mem_filter, hs]
        exact ⟨fun h => h.2, fun h => ⟨hS h, h⟩⟩
      unfold filledCount
      rw [this]
      exact hcard

/-- C19 at `n = 2`, where the recursion visits each of the 16 states once. -/
theorem C19_recurse_visits_each_set_once_witness :
    (∀ s, s < 2 ^ (2 * 2) →
      ((Finset.range (2 * 2)).filter (fun k => s.testBit k = true)).card ≤ 2 + 2 →
      (recurse 2 0 (-1) (2 + 2)).2.2.count s = 1) ∧
    (∀ s, ¬ (s < 2 ^ (2 * 2) ∧
        ((Finset.range (2 * 2)).filter (fun k => s.testBit k = true)).card ≤ 2 + 2) →
      (recurse 2 0 (-1) (2 + 2)).2.2.count s = 0) ∧
    (∀ S : Finset Nat, S ⊆ Finset.range (2 * 2) → S.card ≤ 2 + 2 →
      ∃ s, (∀ k, s.testBit k = true ↔ k ∈ S) ∧ (recurse 2 0 (-1) (2 + 2)).2.2.count s = 1) :=
  C19_recurse_visits_each_set_once 2 (by decide) (by decide)

/-! ## Claims on the neighbour masks -/

theorem NBc_iff_dist (x y x' y' : Nat) :
    NBc x y x' y' ↔ Int.natAbs ((x : Int) - x') + Int.natAbs ((y : Int) - y') = 1 := by
  unfold NBc
  omega

theorem neighborMask_testBit_cells (n x y x' y' : Nat) (hx : x < n) (hy : y < n)
    (hx' : x' < n) (_hy' : y' < n) :
    (neighborMask n (cellIndex n x y)).testBit (cellIndex n x' y') = true ↔ NBc x y x' y' := by
  rw [neighborMask_testBit_cell n x y _ hx hy]
  constructor
  · rintro ⟨a, b, ha, _, hc, hnb⟩
    obtain ⟨rfl, rfl⟩ := cellIndex_inj n _ _ _ _ hx' ha hc
    exact hnb
  · intro h
    exact ⟨x', y', hx', _hy', rfl, h⟩

theorem NBc_symm (x y x' y' : Nat) : NBc x y x' y' ↔ NBc x' y' x y := by
  unfold NBc
  omega

theorem neighborMask_eq_zero (n k : Nat) (hk : n * n ≤ k) : neighborMask n k = 0 := by
  apply Nat.eq_of_testBit_eq
  intro b
  rw [Nat.zero_testBit]
  by_contra h
  obtain ⟨y, hy, x, hx, hc, _⟩ := (neighborMask_testBit n k b).1 (by simpa using h)
  have := cellIndex_lt n x y hx hy
  omega

theorem neighborMask_testBit_NB (n x y b : Nat) (hx : x < n) (hy : y < n) :
    (neighborMask n (cellIndex n x y)).testBit b = true ↔ NB n x y b := by
  rw [neighborMask_testBit_cell n x y b hx hy, NB_iff n x y b hx hy]

theorem popcount64_neighborMask_le (n x y : Nat) (hx : x < n) (hy : y < n) :
    popcount64 (neighborMask n (cellIndex n x y)) ≤ 4 := by
  rw [popcount64_eq_card]
  have hsub : (Finset.range 64).filter
        (fun j => (neighborMask n (cellIndex n x y)).testBit j = true)
      ⊆ {cellIndex n x (y - 1), cellIndex n x (y + 1), cellIndex n (x - 1) y,
          cellIndex n (x + 1) y} := by
    intro b hb
    rw [Finset.mem_filter] at hb
    have := (neighborMask_testBit_NB n x y b hx hy).1 hb.2
    simp only [Finset.mem_insert, Finset.mem_singleton]
    unfold NB at this
    tauto
  exact le_trans (Finset.card_le_card hsub) Finset.card_le_four

/-- C21. For a grid size `n` in 1..8, the neighbour relation built by
`buildNeighborMasks` is symmetric: for all cells `i, j < n*n`, bit `j` of
`neighborMask[i]` is set iff bit `i` of `neighborMask[j]` is set. -/
theorem C21_neighborMask_symmetric (n : Nat) (_hn1 : 1 ≤ n) (_hn8 : n ≤ 8) (i j : Nat)
    (hi : i < n * n) (hj : j < n * n) :
    ((neighborMask n i).testBit j = true ↔ (neighborMask n j).testBit i = true) ∧
      (neighborMask n i).testBit j = (neighborMask n j).testBit i := by
  obtain ⟨x, y, hx, hy, rfl⟩ := exists_cellIndex n i hi
  obtain ⟨x', y', hx', hy', rfl⟩ := exists_cellIndex n j hj
  have h : (neighborMask n (cellIndex n x y)).testBit (cellIndex n x' y') = true ↔
      (neighborMask n (cellIndex n x' y')).testBit (cellIndex n x y) = true := by
    rw [neighborMask_testBit_cells n x y x' y' hx hy hx' hy',
      neighborMask_testBit_cells n x' y' x y hx' hy' hx hy]
    exact NBc_symm x y x' y'
  exact ⟨h, Bool.eq_iff_iff.2 h⟩

/-- C21 at `n = 3` for the centre cell 4 and the cell 1 above it. -/
theorem C21_neighborMask_symmetric_witness :
    ((neighborMask 3 4).testBit 1 = true ↔ (neighborMask 3 1).testBit 4 = true) ∧
      (neighborMask 3 4).testBit 1 = (neighborMask 3 1).testBit 4 :=
  C21_neighborMask_symmetric 3 (by decide) (by decide) 4 1 (by decide) (by decide)

/-- C22. For a grid size `n` in 1..8 and a cell `c = y*n + x` with `x, y < n`:
the set bits of `neighborMask[c]` are exactly the indices `y'*n + x'` of the
cells `(x', y')` of the grid with `|x - x'| + |y - y'| = 1`; bit `c` itself is
clear; there is no wrap-around across the ends of a row (bit `c+1` is clear for
a cell of the last column, bit `c-1` for a cell of the first column); no bit
at an index `≥ n*n` is set; at most 4 bits are set; and `neighborMask[k] = 0`
for every `k ≥ n*n`. -/
theorem C22_neighborMask_orthogonal (n : Nat) (_hn1 : 1 ≤ n) (_hn8 : n ≤ 8) (x y : Nat)
    (hx : x < n) (hy : y < n) :
    (∀ b, (neighborMask n (cellIndex n x y)).testBit b = true ↔
      ∃ x' y', x' < n ∧ y' < n ∧ b = y' * n + x' ∧
        Int.natAbs ((x : Int) - x') + Int.natAbs ((y : Int) - y') = 1) ∧
    (neighborMask n (cellIndex n x y)).testBit (cellIndex n x y) = false ∧
    (x = n - 1 → (neighborMask n (cellIndex n x y)).testBit (cellIndex n x y + 1) = false) ∧
    (x = 0 → 0 < cellIndex n x y →
      (neighborMask n (cellIndex n x y)).testBit (cellIndex n x y - 1) = false) ∧
    (∀ b, n * n ≤ b → (neighborMask n (cellIndex n x y)).testBit b = false) ∧
    popcount64 (neighborMask n (cellIndex n x y)) ≤ 4 ∧
    (∀ k, n * n ≤ k → neighborMask n k = 0) := by
  refine ⟨?_, ?_, ?_, ?_, ?_, popcount64_neighborMask_le n x y hx hy,
    fun k hk => neighborMask_eq_zero n k hk⟩
  · intro b
    rw [neighborMask_testBit_cell n x y b hx hy]
    constructor
    · rintro ⟨x', y', hx', hy', hb, hnb⟩
      exact ⟨x', y', hx', hy', hb, (NBc_iff_dist x y x' y').1 hnb⟩
    · rintro ⟨x', y', hx', hy', hb, hd⟩
      exact ⟨x', y', hx', hy', hb, (NBc_iff_dist x y x' y').2 hd⟩
  · by_contra h
    have := (neighborMask_testBit_cells n x y x y hx hy hx hy).1 (by simpa using h)
    unfold NBc at this
    omega
  · intro hxn
    by_contra h
    obtain ⟨x', y', hx', hy', hb, hnb⟩ :=
      (neighborMask_testBit_cell n x y _ hx hy).1 (by simpa using h)
    have hc : cellIndex n 0 (y + 1) = cellIndex n x' y' := by
      rw [← hb]
      unfold cellIndex
      rw [Nat.add_mul, Nat.one_mul]
      omega
    obtain ⟨rfl, rfl⟩ := cellIndex_inj n _ _ _ _ (by omega) hx' hc
    unfold NBc at hnb
    omega
  · intro hx0 hpos
    by_contra h
    obtain ⟨x', y', hx', hy', hb, hnb⟩ :=
      (neighborMask_testBit_cell n x y _ hx hy).1 (by simpa using h)
    have hy0 : 0 < y := by
      rcases Nat.eq_zero_or_pos y with h0 | h0
      · subst h0; subst hx0
        simp [cellIndex] at hpos
      · exact h0
    have hc : cellIndex n (n - 1) (y - 1) = cellIndex n x' y' := by
      rw [← hb]
      unfold cellIndex
      obtain ⟨z, rfl⟩ : ∃ z, y = z + 1 := ⟨y - 1, by omega⟩
      rw [Nat.add_mul, Nat.one_mul]
      simp only [Nat.add_sub_cancel]
      omega
    obtain ⟨rfl, rfl⟩ := cellIndex_inj n _ _ _ _ (by omega) hx' hc
    unfold NBc at hnb
    omega
  · intro b hb
    by_contra h
    obtain ⟨x', y', hx', hy', hc, _⟩ :=
      (neighborMask_testBit_cell n x y b hx hy).1 (by simpa using h)
    have := cellIndex_lt n x' y' hx' hy'
    omega

/-- C22 at `n = 3` for the cell 2 (column 2 of row 0), whose mask is 34: the
cells 1 and 5. -/
theorem C22_neighborMask_orthogonal_witness :
    (∀ b, (neighborMask 3 (cellIndex 3 2 0)).testBit b = true ↔
      ∃ x' y', x' < 3 ∧ y' < 3 ∧ b = y' * 3 + x' ∧
        Int.natAbs (((2 : Nat) : Int) - x') + Int.natAbs (((0 : Nat) : Int) - y') = 1) ∧
    (neighborMask 3 (cellIndex 3 2 0)).testBit (cellIndex 3 2 0) = false ∧
    (2 = 3 - 1 → (neighborMask 3 (cellIndex 3 2 0)).testBit (cellIndex 3 2 0 + 1) = false) ∧
    (2 = 0 → 0 < cellIndex 3 2 0 →
      (neighborMask 3 (cellIndex 3 2 0)).testBit (cellIndex 3 2 0 - 1) = false) ∧
    (∀ b, 3 * 3 ≤ b → (neighborMask 3 (cellIndex 3 2 0)).testBit b = false) ∧
    popcount64 (neighborMask 3 (cellIndex 3 2 0)) ≤ 4 ∧
    (∀ k, 3 * 3 ≤ k → neighborMask 3 k = 0) :=
  C22_neighborMask_orthogonal 3 (by decide) (by decide) 2 0 (by decide) (by decide)

end WaterProblem
